import Mathlib

/-!
Verification of the rsx sampling library (gstamatelat/rsx).

This file gives a shallow embedding, in Lean 4, of the parts of the rsx
Python library that the verified claims are about:

* `rsx/reservoir/reservoir_sampling.py` — the skip-based unweighted
  reservoir engine `AbstractReservoirSampling` (`put`, `put_iterable`,
  `put_sequence`, `stream_size`, `sample_size`);
* `rsx/reservoir/waterman.py`, `vitter_x.py`, `vitter_z.py`, `li_l.py` —
  the class structure of the four unweighted strategies (modelled at the
  level of Python's abstract-base-class instantiation rule);
* `rsx/weighted_reservoir/order_sampling.py` — the priority-queue based
  weighted engine `OrderSampling.put`;
* `rsx/utils/alias.py` — the Alias-Vose sampler;
* `rsx/whole/jessen.py` — the Jessen tableau builder and query object.

Modelling conventions, used consistently below:

* Python floats are modelled as exact rationals (`ℚ`).
* Randomness is modelled by making each random draw an explicit input:
  `rng.randrange(0, k)` draws are supplied by a stream of naturals reduced
  `% k` (so a draw is always in `[0, k)`, as `randrange` guarantees), the
  values yielded by a skip-generator iterator are supplied by a stream of
  naturals, and each `_key(weight, rng)` result is an explicit argument.
* A Python value that may be `None` is an `Option`; `none` models `None`.
* A method that may raise returns an `Except` together with the state the
  object has when control returns to the caller (Python exceptions leave
  the object in whatever state it had at the raise point).
* `heapq` min-heaps are modelled as lists sorted ascending by the ordering
  key: `heappush` is sorted insertion, `heap[0]`/`heappop` is the head.
  Python's heap breaks ties between equal keys in an unspecified order;
  the sorted-list model fixes one such order, and no verified claim
  depends on the tie order.
* Unbounded `while` loops are modelled by structural recursion on an
  explicit iteration budget (fuel), instantiated at each call site with a
  provable upper bound on the number of iterations, so that every
  definition remains executable by `rfl`/`decide`.
-/

namespace Rsx

/-- The typed errors of rsx (`ValueError`, `rsx.utils.exceptions.BadWeightError`,
`rsx.utils.exceptions.InfeasibleCaseError`). -/
inductive Err : Type where
  | valueError : Err
  | badWeight : Err
  | infeasibleCase : Err
deriving DecidableEq, Repr

/-!
## The skip-based unweighted reservoir engine

`AbstractReservoirSampling` of `rsx/reservoir/reservoir_sampling.py`.
The engine state holds the sample size `k`, the stream size counter, the
reservoir list, the pending skip, the stream of future values yielded by
the skip-generator iterator (`skips`), and the stream of future
`rng.randrange(0, k)` draws (`slots`).
-/

/-- State of `AbstractReservoirSampling`: `sample_size`, `stream_size`,
the reservoir list, the pending `skip`, the skip-generator iterator
(modelled as the stream of values it will yield next) and the random
source for slot draws (modelled as the stream of values `randrange` will
return, reduced `% sample_size`). Reservoir entries are `Option α`
because Python lists can hold `None`. -/
structure ARS (α : Type) where
  sampleSize : ℕ
  streamSize : ℕ
  reservoir : List (Option α)
  skip : ℕ
  skips : Stream' ℕ
  slots : Stream' ℕ

/-- The constructor of `AbstractReservoirSampling`: rejects
`sample_size < 1` with `ValueError`, otherwise starts with an empty
reservoir, a zero stream size, and `skip = next(skip_function)` (the
first value of the skip stream, which is then advanced). -/
def ARS.init (α : Type) (sampleSize : ℕ) (skips slots : Stream' ℕ) :
    Except Err (ARS α) :=
  if sampleSize < 1 then .error .valueError
  else .ok ⟨sampleSize, 0, [], skips 0, skips.tail, slots⟩

/-- `AbstractReservoirSampling.__put`: overwrite the reservoir slot at
index `rng.randrange(0, sample_size)` with the element, consuming one
slot draw. -/
def ARS.privatePut {α : Type} (s : ARS α) (element : Option α) : ARS α :=
  { s with
    reservoir := s.reservoir.set (s.slots 0 % s.sampleSize) element
    slots := s.slots.tail }

/-- `AbstractReservoirSampling.put`. Raises `ValueError` on a `None`
element (before any mutation); otherwise increments the stream size,
appends while the reservoir is below capacity, and once full either
decrements a positive skip (returning `False`) or replaces a random slot
and pulls the next skip value (returning `True`). The returned pair is
(result-or-error, state after the call). -/
def ARS.put {α : Type} (s : ARS α) (element : Option α) :
    Except Err Bool × ARS α :=
  match element with
  | none => (.error .valueError, s)
  | some _ =>
    let s := { s with streamSize := s.streamSize + 1 }
    if s.reservoir.length < s.sampleSize then
      (.ok true, { s with reservoir := s.reservoir ++ [element] })
    else if 0 < s.skip then
      (.ok false, { s with skip := s.skip - 1 })
    else
      let s := s.privatePut element
      (.ok true, { s with skip := s.skips 0, skips := s.skips.tail })

/-- `AbstractReservoirSampling.put_iterable`: calls `put` on each element
in order, or-ing the results; an exception aborts the iteration and
propagates, leaving the mutations made so far in place. -/
def ARS.putIterable {α : Type} (s : ARS α) (elements : List (Option α))
    (changed : Bool := false) : Except Err Bool × ARS α :=
  match elements with
  | [] => (.ok changed, s)
  | e :: rest =>
    match s.put e with
    | (.error err, s') => (.error err, s')
    | (.ok b, s') => s'.putIterable rest (changed || b)

/-- The first `while` loop of `AbstractReservoirSampling.put_sequence`:
append elements while the sequence has elements left and the reservoir is
below capacity. The fuel is an iteration budget; `sequence.length` always
suffices. Returns (state, offset, return_value). -/
def ARS.fillLoop {α : Type} (fuel : ℕ) (s : ARS α)
    (sequence : List (Option α)) (offset : ℕ) (rv : Bool) :
    ARS α × ℕ × Bool :=
  match fuel with
  | 0 => (s, offset, rv)
  | fuel + 1 =>
    if offset < sequence.length ∧ s.reservoir.length < s.sampleSize then
      ARS.fillLoop fuel
        { s with reservoir := s.reservoir ++ [sequence.getD offset none] }
        sequence (offset + 1) true
    else (s, offset, rv)

/-- The second `while` loop of `AbstractReservoirSampling.put_sequence`:
while the sequence extends past `offset + skip`, jump the offset by the
skip, replace a random slot with the element found there, pull the next
skip value, and advance the offset by one more. Returns
(state, offset, return_value). -/
def ARS.skipLoop {α : Type} (fuel : ℕ) (s : ARS α)
    (sequence : List (Option α)) (offset : ℕ) (rv : Bool) :
    ARS α × ℕ × Bool :=
  match fuel with
  | 0 => (s, offset, rv)
  | fuel + 1 =>
    if offset + s.skip < sequence.length then
      let offset := offset + s.skip
      let s := s.privatePut (sequence.getD offset none)
      let s := { s with skip := s.skips 0, skips := s.skips.tail }
      ARS.skipLoop fuel s sequence (offset + 1) true
    else (s, offset, rv)

/-- `AbstractReservoirSampling.put_sequence`: the fill loop, then the
arithmetic skip loop, then the final `skip -= len(sequence) - offset`
adjustment. Note that, unlike `put`, it performs no `None` check and
never touches `stream_size`. The fuel `sequence.length + 1` bounds the
iterations of each loop because the offset strictly increases while it
stays at most `sequence.length`. -/
def ARS.putSequence {α : Type} (s : ARS α) (sequence : List (Option α)) :
    Bool × ARS α :=
  let f := ARS.fillLoop (sequence.length + 1) s sequence 0 false
  let g := ARS.skipLoop (sequence.length + 1) f.1 sequence f.2.1 f.2.2
  (g.2.2, { g.1 with skip := g.1.skip - (sequence.length - g.2.1) })

/-- `AbstractReservoirSampling.stream_size`. -/
def ARS.getStreamSize {α : Type} (s : ARS α) : ℕ := s.streamSize

/-- `AbstractReservoirSampling.sample_size`. -/
def ARS.getSampleSize {α : Type} (s : ARS α) : ℕ := s.sampleSize

/-- The all-zeros random stream, used to instantiate engines at concrete
inputs. -/
def zeroStream : Stream' ℕ := fun _ => 0

/-!
## The Python abstract-base-class structure of the four strategies

`ReservoirSampling` (the ABC in `reservoir_sampling.py`) declares six
abstract methods. Python refuses to instantiate a class that leaves any
of them without an implementation (`TypeError` at the constructor call).
`VitterXSampling`, `VitterZSampling` and `LiLSampling` extend
`AbstractReservoirSampling`, which implements all six;
`WatermanSampling` extends `ReservoirSampling` directly and implements
all of them except `put_sequence`.
-/

/-- The abstract methods a class leaves unimplemented, given the
abstract-method set of its base and the set of methods implemented along
its inheritance chain. -/
def abcRemaining (abstract defined : List String) : List String :=
  abstract.filter (fun m => !(defined.contains m))

/-- Python's ABC instantiation rule: a class can be instantiated exactly
when no abstract method remains unimplemented. -/
def pythonCanInstantiate (abstract defined : List String) : Bool :=
  (abcRemaining abstract defined).isEmpty

/-- The abstract methods declared by the `ReservoirSampling` ABC
(`reservoir_sampling.py`, lines 27-113). -/
def reservoirSamplingAbstract : List String :=
  ["put", "put_iterable", "put_sequence", "sample_size", "stream_size", "sample"]

/-- The `ReservoirSampling` methods implemented by `WatermanSampling`
(`waterman.py`, lines 92-121): all of them except `put_sequence`. -/
def watermanSamplingMethods : List String :=
  ["put", "put_iterable", "sample_size", "stream_size", "sample"]

/-- The `ReservoirSampling` methods implemented by
`AbstractReservoirSampling` (`reservoir_sampling.py`, lines 163-207),
inherited by `VitterXSampling`, `VitterZSampling` and `LiLSampling`,
whose bodies add only a constructor. -/
def abstractReservoirSamplingMethods : List String :=
  ["put", "put_iterable", "put_sequence", "sample_size", "stream_size", "sample"]

/-!
## Claims C1, C2, C3
-/

/-- C1 (code bug): the claim says `put_sequence(seq)` increases
`stream_size()` by `len(seq)`. In the code, `put_sequence`
(`reservoir_sampling.py`, lines 184-198) never touches `__stream_size`:
on a freshly constructed engine with sample size 1, after
`put_sequence([0, 1, 2])` the stream size is still `0`, not `3` — while
a single normally-returning `put` does increase it by exactly `1`. -/
theorem c1_put_sequence_ignores_stream_size :
    ∃ s : ARS ℕ, ARS.init ℕ 1 zeroStream zeroStream = .ok s ∧
      (s.putSequence [some 0, some 1, some 2]).2.getStreamSize = 0 ∧
      (s.putSequence [some 0, some 1, some 2]).2.getStreamSize ≠ 3 ∧
      ((s.put (some 0)).2).getStreamSize = 1 :=
  ⟨⟨1, 0, [], 0, Stream'.tail zeroStream, zeroStream⟩, rfl, rfl, by decide, rfl⟩

/-- C2 (code bug): the claim says all four strategy classes can be
constructed and support `put`, `put_iterable` and `put_sequence`.
`WatermanSampling` does not implement the abstract method
`put_sequence`, so Python raises `TypeError` at `WatermanSampling(k)`
for every `k` — even though the module's own usage example and the test
suite instantiate it. The other three strategies inherit all six methods
from `AbstractReservoirSampling` and can be instantiated. -/
theorem c2_waterman_not_instantiable :
    abcRemaining reservoirSamplingAbstract watermanSamplingMethods
        = ["put_sequence"] ∧
    pythonCanInstantiate reservoirSamplingAbstract watermanSamplingMethods
        = false ∧
    pythonCanInstantiate reservoirSamplingAbstract
        abstractReservoirSamplingMethods = true := by
  decide

/-- C3 (confirmed): for an engine with `sample_size` at least 1 and a
non-`None` element, `put` appends and returns `True` while the reservoir
is below capacity; once the reservoir holds `sample_size` elements it
either decrements a positive skip and returns `False` with the reservoir
unchanged, or, when the skip is zero, overwrites the reservoir slot
drawn by `randrange(0, sample_size)` (an index below `sample_size`),
pulls the next skip value from the skip generator, and returns `True`. -/
theorem c3_put_state_machine {α : Type} (s : ARS α) (v : α)
    (hk : 1 ≤ s.sampleSize) :
    (s.reservoir.length < s.sampleSize →
      s.put (some v) = (.ok true,
        { s with streamSize := s.streamSize + 1,
                 reservoir := s.reservoir ++ [some v] })) ∧
    (s.reservoir.length = s.sampleSize → 0 < s.skip →
      s.put (some v) = (.ok false,
        { s with streamSize := s.streamSize + 1, skip := s.skip - 1 })) ∧
    (s.reservoir.length = s.sampleSize → s.skip = 0 →
      s.slots 0 % s.sampleSize < s.sampleSize ∧
      s.put (some v) = (.ok true,
        { s with streamSize := s.streamSize + 1,
                 reservoir := s.reservoir.set (s.slots 0 % s.sampleSize)
                   (some v),
                 skip := s.skips 0, skips := s.skips.tail,
                 slots := s.slots.tail })) := by
  refine ⟨fun h => ?_, fun h h2 => ?_, fun h h2 => ⟨?_, ?_⟩⟩
  · simp [ARS.put, h]
  · have hn : ¬ s.reservoir.length < s.sampleSize := by omega
    simp [ARS.put, hn, h2]
  · exact Nat.mod_lt _ hk
  · have hn : ¬ s.reservoir.length < s.sampleSize := by omega
    simp [ARS.put, hn, h2, ARS.privatePut]

/-- A concrete engine used as a witness input: sample size 1, empty
reservoir, all-zeros random streams. -/
def freshOne : ARS ℕ := ⟨1, 0, [], 0, zeroStream, zeroStream⟩

/-- Witness for C3 at the concrete engine `freshOne` and element `5`. -/
theorem c3_witness :
    1 ≤ freshOne.sampleSize ∧
    ((freshOne.reservoir.length < freshOne.sampleSize →
      freshOne.put (some 5) = (.ok true,
        { freshOne with streamSize := freshOne.streamSize + 1,
                        reservoir := freshOne.reservoir ++ [some 5] })) ∧
    (freshOne.reservoir.length = freshOne.sampleSize → 0 < freshOne.skip →
      freshOne.put (some 5) = (.ok false,
        { freshOne with streamSize := freshOne.streamSize + 1,
                        skip := freshOne.skip - 1 })) ∧
    (freshOne.reservoir.length = freshOne.sampleSize → freshOne.skip = 0 →
      freshOne.slots 0 % freshOne.sampleSize < freshOne.sampleSize ∧
      freshOne.put (some 5) = (.ok true,
        { freshOne with streamSize := freshOne.streamSize + 1,
                        reservoir := freshOne.reservoir.set
                          (freshOne.slots 0 % freshOne.sampleSize) (some 5),
                        skip := freshOne.skips 0,
                        skips := freshOne.skips.tail,
                        slots := freshOne.slots.tail }))) :=
  ⟨by decide, c3_put_state_machine freshOne 5 (by decide)⟩

/-!
## The order-sampling engine

`OrderSampling` of `rsx/weighted_reservoir/order_sampling.py`, built on a
bounded `heapq` min-heap of `Weighted(value, key)` entries ordered by
key. The heap is modelled as a list sorted ascending by key, so the head
is the heap root (`heap[0]`, the minimum). The strategy hook methods
`_is_weight_legal` and `_default_weight` are modelled as a strategy
record; the `_key(weight, rng)` draw is an explicit argument of `put`.
-/

/-- `rsx.utils.helper.Weighted`: a value paired with the `float` key the
strategy derived from its weight (the class calls the key `weight`). -/
structure WtEntry (α : Type) where
  value : α
  weight : ℚ

/-- Sorted insertion into a list ordered ascending by the measure `wt`;
this models `heapq.heappush` on the sorted-list representation of a
min-heap. -/
def insertWt {β : Type} (wt : β → ℚ) (x : β) : List β → List β
  | [] => [x]
  | y :: ys => if wt x ≤ wt y then x :: y :: ys else y :: insertWt wt x ys

/-- An order-sampling strategy: the `_is_weight_legal` predicate and the
`_default_weight` value. (`_key` is a random draw and is passed to `put`
explicitly.) -/
structure OSStrategy where
  legal : ℚ → Bool
  defaultWeight : ℚ

/-- `EfraimidisSampling`: weights legal on `(0, ∞)` (the `isfinite`
conjunct of the Python check is vacuous for exact rationals), default
weight `1.0`. -/
def efraimidisStrategy : OSStrategy := ⟨fun w => decide (0 < w), 1⟩

/-- `ParetoSampling`: weights legal on `(0, 1)`, default weight `0.5`. -/
def paretoStrategy : OSStrategy := ⟨fun w => decide (0 < w ∧ w < 1), 1 / 2⟩

/-- `SequentialPoissonSampling`: weights legal on `(0, ∞)`, default
weight `1.0`. -/
def sequentialPoissonStrategy : OSStrategy := ⟨fun w => decide (0 < w), 1⟩

/-- State of `OrderSampling`: sample size, stream size, and the bounded
min-heap of keyed entries (sorted ascending by key). -/
structure OS (α : Type) where
  sampleSize : ℕ
  streamSize : ℕ
  heap : List (WtEntry α)

/-- The `OrderSampling` constructor: rejects `sample_size < 1` with
`ValueError`, otherwise starts with an empty heap. -/
def OS.init (α : Type) (sampleSize : ℕ) : Except Err (OS α) :=
  if sampleSize < 1 then .error .valueError
  else .ok ⟨sampleSize, 0, []⟩

/-- `OrderSampling.put`. Raises `ValueError` on a `None` element and
`BadWeightError` on an illegal weight, both before any mutation;
otherwise increments the stream size and either pushes (below capacity),
heap-replaces the minimum (when the new key strictly exceeds it), or
rejects. `key` is the value `_key(weight, rng)` returned. The empty-heap
arm of the full case is unreachable for instances built with
`sample_size ≥ 1`. -/
def OS.put {α : Type} (st : OSStrategy) (s : OS α) (element : Option α)
    (weight : Option ℚ) (key : ℚ) : Except Err Bool × OS α :=
  match element with
  | none => (.error .valueError, s)
  | some v =>
    if st.legal (weight.getD st.defaultWeight) then
      if s.heap.length < s.sampleSize then
        (.ok true, { s with streamSize := s.streamSize + 1,
                            heap := insertWt WtEntry.weight ⟨v, key⟩ s.heap })
      else
        match s.heap with
        | [] => (.ok false, { s with streamSize := s.streamSize + 1 })
        | top :: rest =>
          if top.weight < key then
            (.ok true, { s with streamSize := s.streamSize + 1,
                                heap := insertWt WtEntry.weight ⟨v, key⟩ rest })
          else (.ok false, { s with streamSize := s.streamSize + 1 })
    else (.error .badWeight, s)

/-- Running a list of `put` operations (element, optional weight, drawn
key) from a state, keeping only the state. -/
def OS.runOps {α : Type} (st : OSStrategy) (s : OS α)
    (ops : List (Option α × Option ℚ × ℚ)) : OS α :=
  ops.foldl (fun s op => (OS.put st s op.1 op.2.1 op.2.2).2) s

lemma insertWt_length {β : Type} (wt : β → ℚ) (x : β) (l : List β) :
    (insertWt wt x l).length = l.length + 1 := by
  induction l with
  | nil => rfl
  | cons y ys ih =>
    by_cases h : wt x ≤ wt y <;> simp [insertWt, h, ih]

lemma insertWt_perm {β : Type} (wt : β → ℚ) (x : β) (l : List β) :
    (insertWt wt x l).Perm (x :: l) := by
  induction l with
  | nil => exact List.Perm.refl _
  | cons y ys ih =>
    by_cases h : wt x ≤ wt y
    · simp [insertWt, h]
    · simp only [insertWt, if_neg h]
      exact (ih.cons y).trans (List.Perm.swap x y ys)

lemma insertWt_sorted {β : Type} (wt : β → ℚ) (x : β) :
    ∀ {l : List β}, l.Sorted (fun a b => wt a ≤ wt b) →
      (insertWt wt x l).Sorted (fun a b => wt a ≤ wt b) := by
  intro l
  induction l with
  | nil => intro _; simp [insertWt]
  | cons y ys ih =>
    intro hl
    have hl' := List.sorted_cons.1 hl
    by_cases h : wt x ≤ wt y
    · rw [insertWt, if_pos h]
      refine List.sorted_cons.2 ⟨?_, hl⟩
      intro b hb
      rcases List.mem_cons.1 hb with rfl | hb
      · exact h
      · exact le_trans h (hl'.1 b hb)
    · rw [insertWt, if_neg h]
      refine List.sorted_cons.2 ⟨?_, ih hl'.2⟩
      intro b hb
      rcases List.mem_cons.1 ((insertWt_perm wt x ys).mem_iff.1 hb) with rfl | hb
      · exact le_of_not_le h
      · exact hl'.1 b hb

lemma os_put_sampleSize {α : Type} (st : OSStrategy) (s : OS α)
    (e : Option α) (w : Option ℚ) (key : ℚ) :
    ((OS.put st s e w key).2).sampleSize = s.sampleSize := by
  obtain ⟨k, n, hp⟩ := s
  rcases e with _ | v
  · rfl
  · by_cases hw : st.legal (w.getD st.defaultWeight)
    · rcases hp with _ | ⟨top, rest⟩
      · by_cases hk : 0 < k <;> simp [OS.put, hw, hk]
      · by_cases hk : rest.length + 1 < k
        · simp [OS.put, hw, hk]
        · by_cases hc : top.weight < key <;> simp [OS.put, hw, hk, hc]
    · simp [OS.put, hw]

lemma os_put_length {α : Type} (st : OSStrategy) (s : OS α)
    (e : Option α) (w : Option ℚ) (key : ℚ)
    (h : s.heap.length ≤ s.sampleSize) :
    ((OS.put st s e w key).2).heap.length ≤ s.sampleSize := by
  obtain ⟨k, n, hp⟩ := s
  simp only at h
  rcases e with _ | v
  · exact h
  · by_cases hw : st.legal (w.getD st.defaultWeight)
    · rcases hp with _ | ⟨top, rest⟩
      · by_cases hk : 0 < k <;> simp [OS.put, hw, hk, insertWt_length]
        omega
      · simp only [List.length_cons] at h
        by_cases hk : rest.length + 1 < k
        · simp [OS.put, hw, hk, insertWt_length]
          omega
        · by_cases hc : top.weight < key <;>
            simp [OS.put, hw, hk, hc, insertWt_length] <;> omega
    · simp [OS.put, hw]; exact h

lemma os_put_sorted {α : Type} (st : OSStrategy) (s : OS α)
    (e : Option α) (w : Option ℚ) (key : ℚ)
    (h : s.heap.Sorted (fun a b => a.weight ≤ b.weight)) :
    ((OS.put st s e w key).2).heap.Sorted (fun a b => a.weight ≤ b.weight) := by
  obtain ⟨k, n, hp⟩ := s
  simp only at h
  rcases e with _ | v
  · exact h
  · by_cases hw : st.legal (w.getD st.defaultWeight)
    · rcases hp with _ | ⟨top, rest⟩
      · by_cases hk : 0 < k <;> simp [OS.put, hw, hk]
        exact insertWt_sorted _ _ h
      · by_cases hk : rest.length + 1 < k
        · simp [OS.put, hw, hk]
          exact insertWt_sorted _ _ h
        · by_cases hc : top.weight < key <;> simp [OS.put, hw, hk, hc]
          · exact insertWt_sorted _ _ (List.sorted_cons.1 h).2
          · exact List.sorted_cons.1 h
    · simp [OS.put, hw]; exact h

/-- C5 (confirmed): the order-sampling queue discipline. For a state
whose heap is sorted and within capacity and a legal put: the queue
never exceeds `sample_size` entries (both after one arbitrary `put` and
after any sequence of operations from a constructed instance); below
capacity a valid put pushes the entry and returns `True`; at capacity
the head is the minimum key and the put admits the element if and only
if its key strictly exceeds that minimum (ties rejected with `False`),
evicting the minimum by a single heap-replace. -/
theorem c5_order_sampling_queue {α : Type} (st : OSStrategy) (s : OS α)
    (v : α) (w : Option ℚ) (key : ℚ)
    (hwf : s.heap.Sorted (fun a b => a.weight ≤ b.weight))
    (hlen : s.heap.length ≤ s.sampleSize)
    (hlegal : st.legal (w.getD st.defaultWeight) = true) :
    (∀ e w2 k2, ((OS.put st s e w2 k2).2).heap.length ≤ s.sampleSize ∧
      ((OS.put st s e w2 k2).2).heap.Sorted (fun a b => a.weight ≤ b.weight)) ∧
    (s.heap.length < s.sampleSize →
      OS.put st s (some v) w key = (.ok true,
        { s with streamSize := s.streamSize + 1,
                 heap := insertWt WtEntry.weight ⟨v, key⟩ s.heap })) ∧
    (∀ top rest, s.heap = top :: rest → s.heap.length = s.sampleSize →
      (∀ x ∈ s.heap, top.weight ≤ x.weight) ∧
      (top.weight < key → OS.put st s (some v) w key = (.ok true,
        { s with streamSize := s.streamSize + 1,
                 heap := insertWt WtEntry.weight ⟨v, key⟩ rest })) ∧
      (¬ top.weight < key → OS.put st s (some v) w key = (.ok false,
        { s with streamSize := s.streamSize + 1 }))) ∧
    (∀ k s0, OS.init α k = .ok s0 →
      ∀ ops, (OS.runOps st s0 ops).heap.length ≤ k) := by
  refine ⟨fun e w2 k2 => ⟨os_put_length st s e w2 k2 hlen,
    os_put_sorted st s e w2 k2 hwf⟩, fun hlt => ?_, ?_, ?_⟩
  · obtain ⟨k, n, hp⟩ := s
    simp only at hlt hlegal ⊢
    simp [OS.put, hlegal, hlt]
  · intro top rest hh hfull
    refine ⟨fun x hx => ?_, fun hadm => ?_, fun hrej => ?_⟩
    · rw [hh] at hx
      rcases List.mem_cons.1 hx with rfl | hx
      · exact le_refl _
      · exact (List.sorted_cons.1 (hh ▸ hwf)).1 x hx
    · obtain ⟨k, n, hp⟩ := s
      simp only at hh hfull hlegal ⊢
      subst hh
      simp only [List.length_cons] at hfull
      have hnlt : ¬ (rest.length + 1 < k) := by omega
      simp [OS.put, hlegal, hnlt, hadm]
    · obtain ⟨k, n, hp⟩ := s
      simp only at hh hfull hlegal ⊢
      subst hh
      simp only [List.length_cons] at hfull
      have hnlt : ¬ (rest.length + 1 < k) := by omega
      simp [OS.put, hlegal, hnlt, hrej]
  · intro k s0 h0 ops
    rw [OS.init] at h0
    split at h0
    · cases h0
    · cases h0
      suffices hgen : ∀ (t : OS α), t.sampleSize = k → t.heap.length ≤ k →
          (OS.runOps st t ops).heap.length ≤ k by
        exact hgen _ rfl (by simp)
      induction ops with
      | nil => intro t h1 h2; exact h2
      | cons op rest ih =>
        intro t h1 h2
        refine ih _ ?_ ?_
        · rw [os_put_sampleSize, h1]
        · have := os_put_length st t op.1 op.2.1 op.2.2 (h1 ▸ h2)
          rwa [h1] at this

/-- A concrete order-sampling state used as a witness input: sample size
1, empty heap. -/
def osOne : OS ℕ := ⟨1, 0, []⟩

/-- Witness for C5 at the strategy `efraimidisStrategy`, the concrete
state `osOne`, element `7` with the default weight and drawn key `1`. -/
theorem c5_witness :
    osOne.heap.Sorted (fun a b => a.weight ≤ b.weight) ∧
    osOne.heap.length ≤ osOne.sampleSize ∧
    efraimidisStrategy.legal
      ((none : Option ℚ).getD efraimidisStrategy.defaultWeight) = true ∧
    ((∀ e w2 k2,
        ((OS.put efraimidisStrategy osOne e w2 k2).2).heap.length ≤
          osOne.sampleSize ∧
        ((OS.put efraimidisStrategy osOne e w2 k2).2).heap.Sorted
          (fun a b => a.weight ≤ b.weight)) ∧
    (osOne.heap.length < osOne.sampleSize →
      OS.put efraimidisStrategy osOne (some 7) none 1 = (.ok true,
        { osOne with streamSize := osOne.streamSize + 1,
                     heap := insertWt WtEntry.weight ⟨7, 1⟩ osOne.heap })) ∧
    (∀ top rest, osOne.heap = top :: rest →
        osOne.heap.length = osOne.sampleSize →
      (∀ x ∈ osOne.heap, top.weight ≤ x.weight) ∧
      (top.weight < 1 → OS.put efraimidisStrategy osOne (some 7) none 1 =
        (.ok true,
          { osOne with streamSize := osOne.streamSize + 1,
                       heap := insertWt WtEntry.weight ⟨7, 1⟩ rest })) ∧
      (¬ top.weight < 1 → OS.put efraimidisStrategy osOne (some 7) none 1 =
        (.ok false, { osOne with streamSize := osOne.streamSize + 1 }))) ∧
    (∀ k s0, OS.init ℕ k = .ok s0 →
      ∀ ops, (OS.runOps efraimidisStrategy s0 ops).heap.length ≤ k)) :=
  ⟨by simp [osOne], by decide, by decide,
    c5_order_sampling_queue efraimidisStrategy osOne 7 none 1
      (by simp [osOne]) (by decide) (by decide)⟩

/-- C6 counterexample: the claim says invalid input through the batch
forms raises a typed error and leaves the state untouched. On a fresh
engine, `put_sequence([None])` performs no `None` check at all (it
returns `True` and appends `None` to the reservoir), and
`put_iterable([1, None])` does raise `ValueError` at the `None` but
leaves the element put before it in the reservoir and counted in the
stream size, so the pre-call state is not preserved. -/
theorem c6_batch_forms_counterexample :
    (freshOne.putSequence [none]).1 = true ∧
    (freshOne.putSequence [none]).2.reservoir = [none] ∧
    freshOne.reservoir = ([] : List (Option ℕ)) ∧
    (freshOne.putIterable [some 1, none]).1 = .error .valueError ∧
    (freshOne.putIterable [some 1, none]).2.reservoir = [some 1] ∧
    (freshOne.putIterable [some 1, none]).2.streamSize = 1 :=
  ⟨rfl, rfl, rfl, rfl, rfl, rfl⟩

/-- C6 (corrected): for the single-element `put` of both engines, an
invalid input value — a `None` element, or a weight outside the
strategy's legal domain for order sampling — raises a typed error
(`ValueError`, resp. `BadWeightError`) and leaves the instance's state
exactly what it was before the call. (The batch forms do not have this
property: see the counterexample.) -/
theorem c6_put_invalid_input_rejected {α β : Type} (s : ARS α) (t : OS β)
    (st : OSStrategy) (v : β) (w : Option ℚ) (key : ℚ)
    (hbad : st.legal (w.getD st.defaultWeight) = false) :
    s.put none = (.error .valueError, s) ∧
    OS.put st t none w key = (.error .valueError, t) ∧
    OS.put st t (some v) w key = (.error .badWeight, t) := by
  refine ⟨rfl, rfl, ?_⟩
  obtain ⟨k, n, hp⟩ := t
  simp [OS.put, hbad]

/-- Witness for C6 at the Pareto strategy with the out-of-domain weight
`2` (legal domain `(0, 1)`), concrete states `freshOne` and `osOne`. -/
theorem c6_witness :
    paretoStrategy.legal ((some (2 : ℚ)).getD paretoStrategy.defaultWeight)
        = false ∧
    (freshOne.put none = (.error .valueError, freshOne) ∧
     OS.put paretoStrategy osOne none (some 2) 1 =
       (.error .valueError, osOne) ∧
     OS.put paretoStrategy osOne (some 3) (some 2) 1 =
       (.error .badWeight, osOne)) :=
  ⟨by decide,
    c6_put_invalid_input_rejected freshOne osOne paretoStrategy 3 (some 2) 1
      (by decide)⟩

/-!
## Claim C4: the batch fast path refines per-element `put`

The reference path (the spec side of the refinement) is "call `put(e)`
for each element of the sequence in order". `putEachT` is that path,
instrumented with the list of `put` results and the list of admitted
elements (the elements whose `put` returned `True`). `fillLoopT`,
`skipLoopT` and `batchT` are the same loops as `fillLoop`/`skipLoop`/
`putSequence`, instrumented with the list of elements the batch path
admits (appends to the reservoir or passes to `__put`); projection
lemmas below show the instrumentation does not change the computation.
-/

/-- The per-element reference path: `put` each element in order,
returning the list of `put` results, the final state, and the admitted
elements. (The error arm is unreachable under the "no `None` element"
hypothesis of the claim.) -/
def ARS.putEachT {α : Type} (s : ARS α) (elements : List (Option α)) :
    List Bool × ARS α × List (Option α) :=
  match elements with
  | [] => ([], s, [])
  | e :: rest =>
    match s.put e with
    | (.error _, s') => ([], s', [])
    | (.ok b, s') =>
      let r := s'.putEachT rest
      (b :: r.1, r.2.1, (if b then [e] else []) ++ r.2.2)

/-- `fillLoop`, instrumented with the admitted-element trace. -/
def ARS.fillLoopT {α : Type} (fuel : ℕ) (s : ARS α)
    (sequence : List (Option α)) (offset : ℕ) (rv : Bool)
    (acc : List (Option α)) : ARS α × ℕ × Bool × List (Option α) :=
  match fuel with
  | 0 => (s, offset, rv, acc)
  | fuel + 1 =>
    if offset < sequence.length ∧ s.reservoir.length < s.sampleSize then
      ARS.fillLoopT fuel
        { s with reservoir := s.reservoir ++ [sequence.getD offset none] }
        sequence (offset + 1) true (acc ++ [sequence.getD offset none])
    else (s, offset, rv, acc)

/-- `skipLoop`, instrumented with the admitted-element trace. -/
def ARS.skipLoopT {α : Type} (fuel : ℕ) (s : ARS α)
    (sequence : List (Option α)) (offset : ℕ) (rv : Bool)
    (acc : List (Option α)) : ARS α × ℕ × Bool × List (Option α) :=
  match fuel with
  | 0 => (s, offset, rv, acc)
  | fuel + 1 =>
    if offset + s.skip < sequence.length then
      let offset := offset + s.skip
      let s2 := s.privatePut (sequence.getD offset none)
      let s3 := { s2 with skip := s2.skips 0, skips := s2.skips.tail }
      ARS.skipLoopT fuel s3 sequence (offset + 1) true
        (acc ++ [sequence.getD offset none])
    else (s, offset, rv, acc)

/-- The instrumented batch path from an arbitrary offset: fill loop,
skip loop, final skip adjustment. Returns (changed, state, admitted). -/
def ARS.batchT {α : Type} (f1 f2 : ℕ) (s : ARS α)
    (sequence : List (Option α)) (offset : ℕ) (rv : Bool)
    (acc : List (Option α)) : Bool × ARS α × List (Option α) :=
  let f := ARS.fillLoopT f1 s sequence offset rv acc
  let g := ARS.skipLoopT f2 f.1 sequence f.2.1 f.2.2.1 f.2.2.2
  (g.2.2.1, { g.1 with skip := g.1.skip - (sequence.length - g.2.1) },
    g.2.2.2)

/-- The instrumented `put_sequence`: the batch path from offset 0. -/
def ARS.putSequenceT {α : Type} (s : ARS α) (sequence : List (Option α)) :
    Bool × ARS α × List (Option α) :=
  ARS.batchT (sequence.length + 1) (sequence.length + 1) s sequence 0 false []

lemma fillLoopT_proj {α : Type} :
    ∀ (fuel : ℕ) (s : ARS α) (sequence : List (Option α)) (offset : ℕ)
      (rv : Bool) (acc : List (Option α)),
      (ARS.fillLoopT fuel s sequence offset rv acc).1
          = (ARS.fillLoop fuel s sequence offset rv).1 ∧
      (ARS.fillLoopT fuel s sequence offset rv acc).2.1
          = (ARS.fillLoop fuel s sequence offset rv).2.1 ∧
      (ARS.fillLoopT fuel s sequence offset rv acc).2.2.1
          = (ARS.fillLoop fuel s sequence offset rv).2.2 := by
  intro fuel
  induction fuel with
  | zero => intro s sequence offset rv acc; exact ⟨rfl, rfl, rfl⟩
  | succ fuel ih =>
    intro s sequence offset rv acc
    by_cases h : offset < sequence.length ∧ s.reservoir.length < s.sampleSize
    · simp only [ARS.fillLoopT, ARS.fillLoop, if_pos h]
      exact ih _ _ _ _ _
    · simp only [ARS.fillLoopT, ARS.fillLoop, if_neg h]
      exact ⟨trivial, trivial, trivial⟩

lemma skipLoopT_proj {α : Type} :
    ∀ (fuel : ℕ) (s : ARS α) (sequence : List (Option α)) (offset : ℕ)
      (rv : Bool) (acc : List (Option α)),
      (ARS.skipLoopT fuel s sequence offset rv acc).1
          = (ARS.skipLoop fuel s sequence offset rv).1 ∧
      (ARS.skipLoopT fuel s sequence offset rv acc).2.1
          = (ARS.skipLoop fuel s sequence offset rv).2.1 ∧
      (ARS.skipLoopT fuel s sequence offset rv acc).2.2.1
          = (ARS.skipLoop fuel s sequence offset rv).2.2 := by
  intro fuel
  induction fuel with
  | zero => intro s sequence offset rv acc; exact ⟨rfl, rfl, rfl⟩
  | succ fuel ih =>
    intro s sequence offset rv acc
    by_cases h : offset + s.skip < sequence.length
    · simp only [ARS.skipLoopT, ARS.skipLoop, if_pos h]
      exact ih _ _ _ _ _
    · simp only [ARS.skipLoopT, ARS.skipLoop, if_neg h]
      exact ⟨trivial, trivial, trivial⟩

lemma putSequenceT_proj {α : Type} (s : ARS α)
    (sequence : List (Option α)) :
    (s.putSequenceT sequence).1 = (s.putSequence sequence).1 ∧
    (s.putSequenceT sequence).2.1 = (s.putSequence sequence).2 := by
  have hf := fillLoopT_proj (sequence.length + 1) s sequence 0 false
    ([] : List (Option α))
  simp only [ARS.putSequenceT, ARS.batchT, ARS.putSequence]
  rw [hf.1, hf.2.1, hf.2.2]
  have hs := skipLoopT_proj (sequence.length + 1)
    (ARS.fillLoop (sequence.length + 1) s sequence 0 false).1 sequence
    (ARS.fillLoop (sequence.length + 1) s sequence 0 false).2.1
    (ARS.fillLoop (sequence.length + 1) s sequence 0 false).2.2
    (ARS.fillLoopT (sequence.length + 1) s sequence 0 false []).2.2.2
  rw [hs.1, hs.2.1, hs.2.2]
  exact ⟨rfl, rfl⟩

/-- The per-element path reads the stream-size counter nowhere: two
states that differ only in `stream_size` produce the same `put` results,
the same admitted elements, and final states again differing only in
`stream_size`. -/
lemma putEachT_agree {α : Type} :
    ∀ (l : List (Option α)) (k ns nt : ℕ) (r : List (Option α)) (sk : ℕ)
      (sks sls : Stream' ℕ),
      (ARS.putEachT ⟨k, ns, r, sk, sks, sls⟩ l).1
          = (ARS.putEachT ⟨k, nt, r, sk, sks, sls⟩ l).1 ∧
      (ARS.putEachT ⟨k, ns, r, sk, sks, sls⟩ l).2.2
          = (ARS.putEachT ⟨k, nt, r, sk, sks, sls⟩ l).2.2 ∧
      (ARS.putEachT ⟨k, ns, r, sk, sks, sls⟩ l).2.1.reservoir
          = (ARS.putEachT ⟨k, nt, r, sk, sks, sls⟩ l).2.1.reservoir ∧
      (ARS.putEachT ⟨k, ns, r, sk, sks, sls⟩ l).2.1.skip
          = (ARS.putEachT ⟨k, nt, r, sk, sks, sls⟩ l).2.1.skip ∧
      (ARS.putEachT ⟨k, ns, r, sk, sks, sls⟩ l).2.1.skips
          = (ARS.putEachT ⟨k, nt, r, sk, sks, sls⟩ l).2.1.skips ∧
      (ARS.putEachT ⟨k, ns, r, sk, sks, sls⟩ l).2.1.slots
          = (ARS.putEachT ⟨k, nt, r, sk, sks, sls⟩ l).2.1.slots ∧
      (ARS.putEachT ⟨k, ns, r, sk, sks, sls⟩ l).2.1.sampleSize
          = (ARS.putEachT ⟨k, nt, r, sk, sks, sls⟩ l).2.1.sampleSize := by
  intro l
  induction l with
  | nil => exact fun k ns nt r sk sks sls => ⟨rfl, rfl, rfl, rfl, rfl, rfl, rfl⟩
  | cons e rest ih =>
    intro k ns nt r sk sks sls
    rcases e with _ | v
    · exact ⟨rfl, rfl, rfl, rfl, rfl, rfl, rfl⟩
    · by_cases hres : r.length < k
      · simpa [ARS.putEachT, ARS.put, hres] using
          ih k (ns + 1) (nt + 1) (r ++ [some v]) sk sks sls
      · by_cases hsk : 0 < sk
        · simpa [ARS.putEachT, ARS.put, hres, hsk] using
            ih k (ns + 1) (nt + 1) r (sk - 1) sks sls
        · simpa [ARS.putEachT, ARS.put, ARS.privatePut, hres, hsk] using
            ih k (ns + 1) (nt + 1) (r.set (sls 0 % k) (some v)) (sks 0)
              sks.tail sls.tail

lemma fillLoopT_exit {α : Type} (fuel : ℕ) (s : ARS α)
    (sequence : List (Option α)) (offset : ℕ) (rv : Bool)
    (acc : List (Option α))
    (h : ¬ (offset < sequence.length ∧ s.reservoir.length < s.sampleSize)) :
    ARS.fillLoopT fuel s sequence offset rv acc = (s, offset, rv, acc) := by
  cases fuel with
  | zero => rfl
  | succ fuel => simp only [ARS.fillLoopT, if_neg h]

lemma skipLoopT_exit {α : Type} (fuel : ℕ) (s : ARS α)
    (sequence : List (Option α)) (offset : ℕ) (rv : Bool)
    (acc : List (Option α)) (h : ¬ (offset + s.skip < sequence.length)) :
    ARS.skipLoopT fuel s sequence offset rv acc = (s, offset, rv, acc) := by
  cases fuel with
  | zero => rfl
  | succ fuel => simp only [ARS.skipLoopT, if_neg h]

/-- Decrementing the pending skip while advancing the offset by one does
not change the outcome of the skip loop (with the final skip
adjustment applied): this is the `skip > 0` step of `put` against the
arithmetic jump of `put_sequence`. -/
lemma skip_peel {α : Type} (f : ℕ) (s : ARS α) (seq : List (Option α))
    (offset : ℕ) (rv : Bool) (acc : List (Option α))
    (hsk : 0 < s.skip) (hoff : offset < seq.length) :
    ({ (ARS.skipLoopT (f + 1) s seq offset rv acc).1 with
        skip := (ARS.skipLoopT (f + 1) s seq offset rv acc).1.skip -
          (seq.length - (ARS.skipLoopT (f + 1) s seq offset rv acc).2.1) },
      (ARS.skipLoopT (f + 1) s seq offset rv acc).2.2.1,
      (ARS.skipLoopT (f + 1) s seq offset rv acc).2.2.2)
    = ({ (ARS.skipLoopT (f + 1) { s with skip := s.skip - 1 } seq
            (offset + 1) rv acc).1 with
          skip := (ARS.skipLoopT (f + 1) { s with skip := s.skip - 1 } seq
            (offset + 1) rv acc).1.skip -
            (seq.length - (ARS.skipLoopT (f + 1) { s with skip := s.skip - 1 }
              seq (offset + 1) rv acc).2.1) },
        (ARS.skipLoopT (f + 1) { s with skip := s.skip - 1 } seq
          (offset + 1) rv acc).2.2.1,
        (ARS.skipLoopT (f + 1) { s with skip := s.skip - 1 } seq
          (offset + 1) rv acc).2.2.2) := by
  obtain ⟨k, n, r, sk, sks, sls⟩ := s
  simp only at hsk
  have harith : offset + 1 + (sk - 1) = offset + sk := by omega
  by_cases hc : offset + sk < seq.length
  · have hc2 : offset + 1 + (sk - 1) < seq.length := by omega
    simp only [ARS.skipLoopT, ARS.privatePut, if_pos hc, if_pos hc2, harith]
  · have hc2 : ¬ (offset + 1 + (sk - 1) < seq.length) := by omega
    simp only [ARS.skipLoopT, if_neg hc, if_neg hc2]
    have : sk - (seq.length - offset) = sk - 1 - (seq.length - (offset + 1)) := by
      omega
    simp only [this]

/-- The batch path from an offset at or past the end of the sequence is
the identity: both loops exit immediately and the final skip adjustment
subtracts zero. -/
lemma batch_base {α : Type} (f1 f2 : ℕ) (s : ARS α)
    (seq : List (Option α)) (offset : ℕ) (rv : Bool)
    (acc : List (Option α)) (hoff : seq.length ≤ offset) :
    ARS.batchT f1 f2 s seq offset rv acc = (rv, s, acc) := by
  have h0 : seq.length - offset = 0 := by omega
  rw [ARS.batchT, fillLoopT_exit f1 s seq offset rv acc
    (by intro h; omega)]
  rw [skipLoopT_exit f2 s seq offset rv acc (by omega)]
  obtain ⟨k, n, r, sk, sks, sls⟩ := s
  simp [h0]

/-- The observable fields of an engine state that claim C4 compares:
reservoir contents, pending skip, both random streams, and the sample
size — everything except the stream-size counter. -/
def ARS.obs {α : Type} (s : ARS α) :
    List (Option α) × ℕ × Stream' ℕ × Stream' ℕ × ℕ :=
  (s.reservoir, s.skip, s.skips, s.slots, s.sampleSize)

lemma putEachT_agree_obs {α : Type} (l : List (Option α)) (k ns nt : ℕ)
    (r : List (Option α)) (sk : ℕ) (sks sls : Stream' ℕ) :
    (ARS.putEachT ⟨k, ns, r, sk, sks, sls⟩ l).1
        = (ARS.putEachT ⟨k, nt, r, sk, sks, sls⟩ l).1 ∧
    (ARS.putEachT ⟨k, ns, r, sk, sks, sls⟩ l).2.2
        = (ARS.putEachT ⟨k, nt, r, sk, sks, sls⟩ l).2.2 ∧
    (ARS.putEachT ⟨k, ns, r, sk, sks, sls⟩ l).2.1.obs
        = (ARS.putEachT ⟨k, nt, r, sk, sks, sls⟩ l).2.1.obs := by
  have h := putEachT_agree l k ns nt r sk sks sls
  refine ⟨h.1, h.2.1, ?_⟩
  simp only [ARS.obs, Prod.mk.injEq]
  exact ⟨h.2.2.1, h.2.2.2.1, h.2.2.2.2.1, h.2.2.2.2.2.1, h.2.2.2.2.2.2⟩

/-- The heart of claim C4: from any state and any offset, the batch path
(fill loop, skip loop, skip adjustment) computes the same observable
state, the same overall return value, and the same admitted elements as
calling `put` on each remaining element in order, and it leaves the
stream-size counter untouched. -/
lemma batch_eqv {α : Type} (seq : List (Option α)) :
    ∀ (d : ℕ), ∀ (offset : ℕ) (s : ARS α) (rv : Bool)
      (acc : List (Option α)) (f1 f2 : ℕ),
      seq.length - offset ≤ d →
      seq.length - offset ≤ f1 →
      seq.length - offset ≤ f2 →
      (∀ e ∈ seq.drop offset, e ≠ none) →
      (ARS.batchT f1 f2 s seq offset rv acc).1
          = (rv || (ARS.putEachT s (seq.drop offset)).1.any id) ∧
      (ARS.batchT f1 f2 s seq offset rv acc).2.2
          = acc ++ (ARS.putEachT s (seq.drop offset)).2.2 ∧
      (ARS.batchT f1 f2 s seq offset rv acc).2.1.obs
          = (ARS.putEachT s (seq.drop offset)).2.1.obs ∧
      (ARS.batchT f1 f2 s seq offset rv acc).2.1.streamSize
          = s.streamSize := by
  intro d
  induction d with
  | zero =>
    intro offset s rv acc f1 f2 hd hf1 hf2 hno
    have hoff : seq.length ≤ offset := by omega
    rw [batch_base f1 f2 s seq offset rv acc hoff,
      List.drop_eq_nil_of_le hoff]
    simp [ARS.putEachT]
  | succ d ih =>
    intro offset s rv acc f1 f2 hd hf1 hf2 hno
    by_cases hoff : seq.length ≤ offset
    · rw [batch_base f1 f2 s seq offset rv acc hoff,
        List.drop_eq_nil_of_le hoff]
      simp [ARS.putEachT]
    · push_neg at hoff
      have hdrop : seq.drop offset = seq[offset] :: seq.drop (offset + 1) :=
        List.drop_eq_getElem_cons hoff
      have hget : seq.getD offset none = seq[offset] :=
        List.getD_eq_getElem seq none hoff
      obtain ⟨v, hv⟩ : ∃ v, seq[offset] = some v := by
        rcases hxx : seq[offset] with _ | v
        · exact absurd rfl
            (hxx ▸ hno seq[offset] (by rw [hdrop]; exact List.mem_cons_self _ _))
        · exact ⟨v, rfl⟩
      have hno' : ∀ e ∈ seq.drop (offset + 1), e ≠ none := fun e he =>
        hno e (by rw [hdrop]; exact List.mem_cons_of_mem _ he)
      obtain ⟨k, n, r, sk, sks, sls⟩ := s
      by_cases hres : r.length < k
      · -- The reservoir is below capacity: both paths append the element.
        rcases f1 with _ | g1
        · exact absurd hf1 (by omega)
        have hstep :
            ARS.batchT (g1 + 1) f2 ⟨k, n, r, sk, sks, sls⟩ seq offset rv acc
              = ARS.batchT g1 f2 ⟨k, n, r ++ [some v], sk, sks, sls⟩ seq
                  (offset + 1) true (acc ++ [some v]) := by
          simp only [ARS.batchT, ARS.fillLoopT, hget, hv]
          rw [if_pos ⟨hoff, hres⟩]
        have hih := ih (offset + 1) ⟨k, n, r ++ [some v], sk, sks, sls⟩ true
          (acc ++ [some v]) g1 f2 (by omega) (by omega) (by omega) hno'
        have hagree := putEachT_agree_obs (seq.drop (offset + 1)) k (n + 1) n
          (r ++ [some v]) sk sks sls
        have hput : ARS.put (⟨k, n, r, sk, sks, sls⟩ : ARS α) (some v)
            = (.ok true, ⟨k, n + 1, r ++ [some v], sk, sks, sls⟩) := by
          simp [ARS.put, hres]
        rw [hstep, hdrop, hv]
        simp only [ARS.putEachT, hput, List.any_cons, id, List.nil_append,
          List.cons_append, List.singleton_append]
        refine ⟨?_, ?_, ?_, ?_⟩
        · rw [hih.1, hagree.1]
          simp
        · rw [hih.2.1, hagree.2.1]
          simp
        · rw [hih.2.2.1, hagree.2.2]
        · exact hih.2.2.2
      · rcases f2 with _ | g2
        · exact absurd hf2 (by omega)
        by_cases hsk : 0 < sk
        · -- Full reservoir, positive skip: `put` decrements, the batch
          -- path jumps the same distance.
          have hpeel := skip_peel g2 ⟨k, n, r, sk, sks, sls⟩ seq offset rv acc
            (by simpa using hsk) hoff
          have hb1 :
              ARS.batchT f1 (g2 + 1) ⟨k, n, r, sk, sks, sls⟩ seq offset rv acc
                = ARS.batchT f1 (g2 + 1) ⟨k, n, r, sk - 1, sks, sls⟩ seq
                    (offset + 1) rv acc := by
            rw [ARS.batchT, ARS.batchT,
              fillLoopT_exit f1 _ seq offset rv acc (fun h => hres (by simpa using h.2)),
              fillLoopT_exit f1 _ seq (offset + 1) rv acc
                (fun h => hres (by simpa using h.2))]
            have h1 := congrArg Prod.fst hpeel
            have h2 := congrArg (fun t => t.2.1) hpeel
            have h3 := congrArg (fun t => t.2.2) hpeel
            simp only at h1 h2 h3 ⊢
            rw [h1, h2, h3]
          have hih := ih (offset + 1) ⟨k, n, r, sk - 1, sks, sls⟩ rv acc f1
            (g2 + 1) (by omega) (by omega) (by omega) hno'
          have hagree := putEachT_agree_obs (seq.drop (offset + 1)) k (n + 1) n
            r (sk - 1) sks sls
          have hput : ARS.put (⟨k, n, r, sk, sks, sls⟩ : ARS α) (some v)
              = (.ok false, ⟨k, n + 1, r, sk - 1, sks, sls⟩) := by
            simp [ARS.put, hres, hsk]
          rw [hb1, hdrop, hv]
          simp only [ARS.putEachT, hput, List.any_cons, id, List.nil_append]
          refine ⟨?_, ?_, ?_, ?_⟩
          · rw [hih.1, hagree.1]
            simp
          · rw [hih.2.1, hagree.2.1]
            simp
          · rw [hih.2.2.1, hagree.2.2]
          · exact hih.2.2.2
        · -- Full reservoir, zero skip: `put` replaces a random slot and
          -- draws the next skip; the batch path does the same.
          have hsk0 : sk = 0 := by omega
          subst hsk0
          have hstep :
              ARS.batchT f1 (g2 + 1) ⟨k, n, r, 0, sks, sls⟩ seq offset rv acc
                = ARS.batchT f1 g2
                    ⟨k, n, r.set (sls 0 % k) (some v), sks 0, sks.tail,
                      sls.tail⟩ seq (offset + 1) true (acc ++ [some v]) := by
            have hget' : seq[offset]?.getD none = some v := by
              rw [List.getElem?_eq_getElem hoff, hv]
              rfl
            rw [ARS.batchT, ARS.batchT,
              fillLoopT_exit f1 _ seq offset rv acc
                (fun h => hres (by simpa using h.2)),
              fillLoopT_exit f1 _ seq (offset + 1) true (acc ++ [some v])
                (fun h => hres (by simpa using h.2))]
            simp only [ARS.skipLoopT, ARS.privatePut, hget, hv]
            rw [if_pos (by simpa using hoff)]
            simp [hget']
          have hih := ih (offset + 1)
            ⟨k, n, r.set (sls 0 % k) (some v), sks 0, sks.tail, sls.tail⟩ true
            (acc ++ [some v]) f1 g2 (by omega) (by omega) (by omega) hno'
          have hagree := putEachT_agree_obs (seq.drop (offset + 1)) k (n + 1) n
            (r.set (sls 0 % k) (some v)) (sks 0) sks.tail sls.tail
          have hput : ARS.put (⟨k, n, r, 0, sks, sls⟩ : ARS α) (some v)
              = (.ok true, ⟨k, n + 1, r.set (sls 0 % k) (some v), sks 0,
                  sks.tail, sls.tail⟩) := by
            simp [ARS.put, ARS.privatePut, hres]
          rw [hstep, hdrop, hv]
          simp only [ARS.putEachT, hput, List.any_cons, id, List.nil_append,
            List.cons_append, List.singleton_append]
          refine ⟨?_, ?_, ?_, ?_⟩
          · rw [hih.1, hagree.1]
            simp
          · rw [hih.2.1, hagree.2.1]
            simp
          · rw [hih.2.2.1, hagree.2.2]
          · exact hih.2.2.2

/-- C4 (confirmed): for every state and every sequence of non-`None`
elements, `put_sequence` is observationally identical to calling `put`
on each element in order with the same random streams: the final
reservoir contents, the pending skip value, the positions of both random
streams, the overall "changed" result, and the list of admitted elements
(the trace instrumentation of both paths) all coincide. (The
stream-size counter is the one observable the two paths disagree on —
claim C1.) -/
theorem c4_put_sequence_refines_put {α : Type} (s : ARS α)
    (seq : List (Option α)) (hno : ∀ e ∈ seq, e ≠ none) :
    (s.putSequence seq).2.reservoir = (s.putEachT seq).2.1.reservoir ∧
    (s.putSequence seq).2.skip = (s.putEachT seq).2.1.skip ∧
    (s.putSequence seq).2.skips = (s.putEachT seq).2.1.skips ∧
    (s.putSequence seq).2.slots = (s.putEachT seq).2.1.slots ∧
    (s.putSequence seq).1 = (s.putEachT seq).1.any id ∧
    (s.putSequenceT seq).2.2 = (s.putEachT seq).2.2 := by
  have hb := batch_eqv seq seq.length 0 s false [] (seq.length + 1)
    (seq.length + 1) (by omega) (by omega) (by omega) (by simpa using hno)
  have hp := putSequenceT_proj s seq
  rw [← hp.1, ← hp.2]
  simp only [ARS.putSequenceT] at hp ⊢
  refine ⟨congrArg (fun t => t.1) hb.2.2.1,
    congrArg (fun t => t.2.1) hb.2.2.1,
    congrArg (fun t => t.2.2.1) hb.2.2.1,
    congrArg (fun t => t.2.2.2.1) hb.2.2.1, ?_, ?_⟩
  · simpa using hb.1
  · simpa using hb.2.1

/-- Witness for C4 at the concrete engine `freshOne` and the sequence
`[1, 2, 3]`. -/
theorem c4_witness :
    (∀ e ∈ [some 1, some 2, some 3], e ≠ (none : Option ℕ)) ∧
    ((freshOne.putSequence [some 1, some 2, some 3]).2.reservoir
        = (freshOne.putEachT [some 1, some 2, some 3]).2.1.reservoir ∧
    (freshOne.putSequence [some 1, some 2, some 3]).2.skip
        = (freshOne.putEachT [some 1, some 2, some 3]).2.1.skip ∧
    (freshOne.putSequence [some 1, some 2, some 3]).2.skips
        = (freshOne.putEachT [some 1, some 2, some 3]).2.1.skips ∧
    (freshOne.putSequence [some 1, some 2, some 3]).2.slots
        = (freshOne.putEachT [some 1, some 2, some 3]).2.1.slots ∧
    (freshOne.putSequence [some 1, some 2, some 3]).1
        = (freshOne.putEachT [some 1, some 2, some 3]).1.any id ∧
    (freshOne.putSequenceT [some 1, some 2, some 3]).2.2
        = (freshOne.putEachT [some 1, some 2, some 3]).2.2) :=
  ⟨by decide, c4_put_sequence_refines_put freshOne [some 1, some 2, some 3]
    (by decide)⟩

/-!
## The Alias-Vose sampler

`AliasMethod` of `rsx/utils/alias.py`. The constructor partitions the
scaled probabilities into `small` and `large` Python-list stacks (append
to the end, `pop()` from the end); stacks are modelled as lists with the
top at the head, so the initial stacks are the index filters reversed.
The processing `while` loop pops one index from each stack and pushes
back at most one, so the total stack size strictly decreases and the
initial total size is an iteration budget that always suffices.
-/

/-- The `AliasMethod` instance state: the population size `n`, the
probability table `u`, and the alias table `k`. -/
structure AliasMethod where
  n : ℕ
  u : List ℚ
  k : List ℕ

/-- The processing `while small and large` loop of the `AliasMethod`
constructor: pop a large index `l` and a small index `s`, record `l` as
the alias of `s`, fold the spare mass of `s` onto `l`, and re-bucket `l`
by whether its remaining scaled probability dropped below 1. Returns the
tables and the remaining stacks. -/
def aliasLoop (fuel : ℕ) (u : List ℚ) (kl : List ℕ)
    (small large : List ℕ) : List ℚ × List ℕ × List ℕ × List ℕ :=
  match fuel with
  | 0 => (u, kl, small, large)
  | fuel + 1 =>
    match small, large with
    | s :: small', l :: large' =>
      let kl' := kl.set s l
      let u' := u.set l ((u.getD l 0 + u.getD s 0) - 1)
      if u'.getD l 0 < 1 then aliasLoop fuel u' kl' (l :: small') large'
      else aliasLoop fuel u' kl' small' (l :: large')
    | _, _ => (u, kl, small, large)

/-- The `AliasMethod` constructor: rejects an empty probability vector
with `ValueError`; otherwise scales every probability by `n`, buckets
the indices with scaled probability below 1 into `small` and above 1
into `large` (in index order, popped from the end), runs the processing
loop, and finalizes every index left on either stack to threshold 1. -/
def AliasMethod.init (probs : List ℚ) : Except Err AliasMethod :=
  if probs.length < 1 then .error .valueError
  else
    let n := probs.length
    let u0 := probs.map (fun p => (n : ℚ) * p)
    let k0 := List.range n
    let small0 :=
      ((List.range n).filter (fun i => (n : ℚ) * probs.getD i 0 < 1)).reverse
    let large0 :=
      ((List.range n).filter (fun i => 1 < (n : ℚ) * probs.getD i 0)).reverse
    let r := aliasLoop (small0.length + large0.length) u0 k0 small0 large0
    let u1 := r.2.2.1.foldl (fun u i => u.set i 1) r.1
    let u2 := r.2.2.2.foldl (fun u i => u.set i 1) u1
    .ok ⟨n, u2, r.2.1⟩

/-- `AliasMethod.sample` on a uniform draw `x ∈ [0, 1)` (the value
`rng.random()` returned): `i = floor(n·x)`, `y = n·x + 1 - i - 1`,
return `i` if `y < u[i]`, else the alias `k[i]`. The floor is
non-negative for `x ≥ 0`, so `Int.toNat` is exact. -/
def AliasMethod.sample (a : AliasMethod) (x : ℚ) : ℕ :=
  let i : ℤ := Int.floor ((a.n : ℚ) * x)
  let y : ℚ := (a.n : ℚ) * x + 1 - i - 1
  if y < a.u.getD i.toNat 0 then i.toNat else a.k.getD i.toNat 0

lemma aliasLoop_inv (n : ℕ) :
    ∀ (fuel : ℕ) (u : List ℚ) (kl : List ℕ) (small large : List ℕ),
      u.length = n → kl.length = n → (∀ j ∈ kl, j < n) →
      (∀ i ∈ large, i < n) →
      (aliasLoop fuel u kl small large).1.length = n ∧
      (aliasLoop fuel u kl small large).2.1.length = n ∧
      (∀ j ∈ (aliasLoop fuel u kl small large).2.1, j < n) ∧
      (∀ i ∈ (aliasLoop fuel u kl small large).2.2.2, i < n) := by
  intro fuel
  induction fuel with
  | zero => exact fun u kl small large hu hk hkm hl => ⟨hu, hk, hkm, hl⟩
  | succ fuel ih =>
    intro u kl small large hu hk hkm hl
    rcases small with _ | ⟨s, small'⟩
    · exact ⟨hu, hk, hkm, hl⟩
    rcases large with _ | ⟨l, large'⟩
    · exact ⟨hu, hk, hkm, hl⟩
    have hln : l < n := hl l (List.mem_cons_self _ _)
    have hkm' : ∀ j ∈ kl.set s l, j < n := by
      intro j hj
      rcases List.mem_or_eq_of_mem_set hj with hj | rfl
      · exact hkm j hj
      · exact hln
    have hl' : ∀ i ∈ large', i < n := fun i hi =>
      hl i (List.mem_cons_of_mem _ hi)
    by_cases hc : (u.set l ((u.getD l 0 + u.getD s 0) - 1)).getD l 0 < 1
    · simp only [aliasLoop, if_pos hc]
      exact ih _ _ _ _ (by simpa using hu) (by simpa using hk) hkm' hl'
    · simp only [aliasLoop, if_neg hc]
      exact ih _ _ _ _ (by simpa using hu) (by simpa using hk) hkm'
        (fun i hi => by
          rcases List.mem_cons.1 hi with rfl | hi
          · exact hln
          · exact hl' i hi)

lemma finalize_length (l : List ℕ) (u : List ℚ) :
    (l.foldl (fun u i => u.set i 1) u).length = u.length := by
  induction l generalizing u with
  | nil => rfl
  | cons i rest ih => simp [List.foldl_cons, ih]

/-- The structural facts `sample` needs about a constructed instance:
`n ≥ 1`, both tables have length `n`, and every alias entry is an index
below `n`. -/
lemma aliasInit_inv {probs : List ℚ} {a : AliasMethod}
    (h : AliasMethod.init probs = .ok a) :
    1 ≤ a.n ∧ a.u.length = a.n ∧ a.k.length = a.n ∧ ∀ j ∈ a.k, j < a.n := by
  rw [AliasMethod.init] at h
  split at h
  · cases h
  · next hlen =>
    dsimp only at h
    cases h
    have hinv := aliasLoop_inv probs.length
      ((((List.range probs.length).filter
          (fun i => (probs.length : ℚ) * probs.getD i 0 < 1)).reverse).length +
        (((List.range probs.length).filter
          (fun i => 1 < (probs.length : ℚ) * probs.getD i 0)).reverse).length)
      (probs.map (fun p => (probs.length : ℚ) * p)) (List.range probs.length)
      (((List.range probs.length).filter
          (fun i => (probs.length : ℚ) * probs.getD i 0 < 1)).reverse)
      (((List.range probs.length).filter
          (fun i => 1 < (probs.length : ℚ) * probs.getD i 0)).reverse)
      (by simp) (by simp) (by intro j hj; simpa using List.mem_range.1 hj)
      (by intro i hi; simp only [List.mem_reverse, List.mem_filter] at hi
          exact List.mem_range.1 hi.1)
    have hn1 : 1 ≤ probs.length := by omega
    exact ⟨hn1, by simpa only [finalize_length] using hinv.1, hinv.2.1,
      hinv.2.2.1⟩

/-- C9 (confirmed): for an Alias-Vose sampler constructed from any
probability vector (of length at least 1) and any uniform draw
`x ∈ [0, 1)`, `sample` returns `i = floor(n·x)` when the fractional
remainder `y = n·x - i` is below slot `i`'s threshold and slot `i`'s
alias otherwise (the code's `n·x + 1 - i - 1` equals `n·x - i`), and the
returned value is always an index in `[0, n)`. -/
theorem c9_alias_sample (probs : List ℚ) (a : AliasMethod) (x : ℚ)
    (h : AliasMethod.init probs = .ok a) (hx0 : 0 ≤ x) (hx1 : x < 1) :
    a.sample x =
      (if (a.n : ℚ) * x - ⌊(a.n : ℚ) * x⌋ <
          a.u.getD (⌊(a.n : ℚ) * x⌋).toNat 0 then (⌊(a.n : ℚ) * x⌋).toNat
        else a.k.getD (⌊(a.n : ℚ) * x⌋).toNat 0) ∧
    a.sample x < a.n := by
  obtain ⟨hn, hu, hk, hkm⟩ := aliasInit_inv h
  have hy : (a.n : ℚ) * x + 1 - ⌊(a.n : ℚ) * x⌋ - 1
      = (a.n : ℚ) * x - ⌊(a.n : ℚ) * x⌋ := by ring
  have hfl0 : (0 : ℤ) ≤ ⌊(a.n : ℚ) * x⌋ :=
    Int.floor_nonneg.2 (mul_nonneg (by positivity) hx0)
  have hfln : ⌊(a.n : ℚ) * x⌋ < (a.n : ℤ) := by
    rw [Int.floor_lt]
    calc (a.n : ℚ) * x < (a.n : ℚ) * 1 := by
          have : (0 : ℚ) < (a.n : ℚ) := by
            exact_mod_cast Nat.lt_of_lt_of_le Nat.zero_lt_one hn
          exact mul_lt_mul_of_pos_left hx1 this
      _ = ((a.n : ℤ) : ℚ) := by push_cast; ring
  have hin : (⌊(a.n : ℚ) * x⌋).toNat < a.n := by omega
  constructor
  · simp only [AliasMethod.sample, hy]
  · simp only [AliasMethod.sample]
    split
    · exact hin
    · have hmem : a.k.getD (⌊(a.n : ℚ) * x⌋).toNat 0 ∈ a.k := by
        rw [List.getD_eq_getElem a.k 0 (by omega)]
        exact List.getElem_mem _
      exact hkm _ hmem

/-- Witness for C9 at the probability vector `[1/4, 3/4]` and the draw
`x = 1/3`. -/
theorem c9_witness :
    ∃ a : AliasMethod, AliasMethod.init [1/4, 3/4] = .ok a ∧
      (0 : ℚ) ≤ 1/3 ∧ (1/3 : ℚ) < 1 ∧
      (a.sample (1/3) =
        (if (a.n : ℚ) * (1/3) - ⌊(a.n : ℚ) * (1/3)⌋ <
            a.u.getD (⌊(a.n : ℚ) * (1/3)⌋).toNat 0 then
          (⌊(a.n : ℚ) * (1/3)⌋).toNat
        else a.k.getD (⌊(a.n : ℚ) * (1/3)⌋).toNat 0) ∧
      a.sample (1/3) < a.n) := by
  have hinit : AliasMethod.init [1/4, 3/4] = .ok ⟨2, [1/2, 1], [1, 1]⟩ := by
    norm_num [AliasMethod.init, aliasLoop, List.range_succ]
  exact ⟨⟨2, [1/2, 1], [1, 1]⟩, hinit, by norm_num, by norm_num,
    c9_alias_sample [1/4, 3/4] ⟨2, [1/2, 1], [1, 1]⟩ (1/3) hinit
      (by norm_num) (by norm_num)⟩

/-!
## Jessen whole-sample builder and query object

`JessenBuilder`, `JessenSampling` of `rsx/whole/jessen.py`. The builder
accumulates `_Weighted(value, weight)` pairs in a plain list (`__heap`
is only heapified inside `build`) together with the running weight sum.
`build` checks `0 < k ≤ n`, normalizes every weight to
`-weight·k/Σweights` (raising `InfeasibleCaseError` at the first
normalized weight above 1 and leaving the earlier entries mutated),
heapifies, runs the tableau loop, resets the builder, and returns the
query object. The `heapq` min-heap over `_Weighted` (ordered by weight)
is modelled as a list sorted ascending by weight, as for order sampling.
The tableau loop is a `while` loop with fuel; the quadratic fuel bound
chosen in `build` always suffices (each iteration either shortens the
heap or increases the number of entries whose magnitude equals the
running balance — proven below), so the out-of-fuel arm of `build` is
unreachable for every input that reaches the loop. -/

/-- `jessen._Weighted`: a value with a (float) weight. Inside the build
loop the stored weight is the negated normalized weight. -/
structure JW (V : Type) where
  value : V
  weight : ℚ

/-- The `JessenBuilder` accumulator state: the `__heap` list of weighted
items (in insertion order until `build` heapifies it) and the running
`__weight_sum`. -/
structure JessenBuilder (V : Type) where
  heap : List (JW V)
  weightSum : ℚ

/-- The `JessenBuilder()` constructor: empty population, zero sum. -/
def JessenBuilder.initB (V : Type) : JessenBuilder V := ⟨[], 0⟩

/-- `JessenBuilder.add`: reject non-positive weights with
`BadWeightError` (state unchanged), otherwise append the pair and add
the weight to the running sum. -/
def JessenBuilder.add {V : Type} (b : JessenBuilder V) (item : V)
    (weight : ℚ) : Except Err (JessenBuilder V) :=
  if weight ≤ 0 then .error .badWeight
  else .ok ⟨b.heap ++ [⟨item, weight⟩], b.weightSum + weight⟩

/-- `JessenBuilder.reset`: clear the population and the weight sum. -/
def JessenBuilder.reset (V : Type) : JessenBuilder V := ⟨[], 0⟩

/-- The query object returned by `build`: the sample space and the
probability of each sample. (`JessenSampling.__init__` additionally
builds `AliasMethod(sample_probabilities)` — the alias component is
modelled separately by `AliasMethod.init`; the claims about the query
stage are settled there.) -/
structure JessenSampling (V : Type) where
  sampleSpace : List (List V)
  sampleProbabilities : List ℚ

/-- The weight-normalization loop of `build`: walk the population in
order, raising `InfeasibleCaseError` at the first element whose
normalized weight `w·k/Z` exceeds 1 (that element and the ones after it
keep their raw weights), and overwriting each other element's weight
with `-(w·k/Z)`. The error payload is the partially mutated list. -/
def normalizeLoop {V : Type} (qk Z : ℚ) :
    List (JW V) → Except (List (JW V)) (List (JW V))
  | [] => .ok []
  | w :: t =>
    if 1 < w.weight * qk / Z then .error (w :: t)
    else
      match normalizeLoop qk Z t with
      | .ok t' => .ok (⟨w.value, -(w.weight * qk / Z)⟩ :: t')
      | .error t' => .error (⟨w.value, -(w.weight * qk / Z)⟩ :: t')

/-- `heapq.heapify` on the sorted-list heap model: insertion sort by
weight. -/
def heapifyJW {V : Type} (l : List (JW V)) : List (JW V) :=
  l.foldl (fun h w => insertWt JW.weight w h) []

/-- The tableau-construction `while` loop of `build`. Each iteration
pops the `k` smallest stored weights (the `k` largest original weights),
computes `reduce_by`, breaks if it is zero, pushes back the popped
entries that still have weight left after subtracting `reduce_by`,
records the popped values as a sample with probability `reduce_by`, and
decrements the overall balance. Returns `none` on fuel exhaustion. -/
def jessenLoop {V : Type} (fuel k : ℕ) (heap : List (JW V)) (balance : ℚ)
    (space : List (List V)) (probs : List ℚ) :
    Option (List (List V) × List ℚ) :=
  match fuel with
  | 0 => none
  | fuel + 1 =>
    if k ≤ heap.length then
      let popped := heap.take k
      let rest := heap.drop k
      let lastW := ((popped.getLast?).map JW.weight).getD 0
      let reduceBy :=
        match rest with
        | [] => -lastW
        | r0 :: _ => min (-lastW) (balance + r0.weight)
      if reduceBy = 0 then some (space, probs)
      else
        let pushed := (popped.filter (fun w => w.weight + reduceBy < 0)).map
          (fun w => (⟨w.value, w.weight + reduceBy⟩ : JW V))
        jessenLoop fuel k
          (pushed.foldl (fun h w => insertWt JW.weight w h) rest)
          (balance - reduceBy) (space ++ [popped.map JW.value])
          (probs ++ [reduceBy])
    else some (space, probs)

/-- `JessenBuilder.build`. Checks `0 < k ≤ n` (raising `ValueError`
before any mutation), normalizes (raising `InfeasibleCaseError` with the
builder partially mutated), heapifies, runs the tableau loop with a fuel
bound that always suffices (the `none` arm is provably dead), resets the
builder, and returns the query object. -/
def JessenBuilder.build {V : Type} (b : JessenBuilder V) (sampleSize : ℕ) :
    Except Err (JessenSampling V) × JessenBuilder V :=
  if ¬ (0 < sampleSize ∧ sampleSize ≤ b.heap.length) then
    (.error .valueError, b)
  else
    match normalizeLoop (sampleSize : ℚ) b.weightSum b.heap with
    | .error partialHeap => (.error .infeasibleCase, ⟨partialHeap, b.weightSum⟩)
    | .ok normed =>
      match jessenLoop
          (normed.length * (normed.length + 1) + normed.length + 1)
          sampleSize (heapifyJW normed) 1 [] [] with
      | none => (.error .infeasibleCase, ⟨[], 0⟩)
      | some r => (.ok ⟨r.1, r.2⟩, ⟨[], 0⟩)

/-- Well-formedness of a builder state: exactly the states reachable
through `add`: all weights positive and the running sum is their sum. -/
def wfBuilder {V : Type} (b : JessenBuilder V) : Prop :=
  (∀ w ∈ b.heap, 0 < w.weight) ∧ b.weightSum = (b.heap.map JW.weight).sum

/-- C10 (confirmed): `build` with `k ≤ 0` or `k` greater than the number
of accumulated elements raises `ValueError` before any weight
normalization, leaving the accumulated pairs and the running weight sum
unchanged, so the builder remains usable without `reset`. -/
theorem c10_build_size_check {V : Type} (b : JessenBuilder V)
    (sampleSize : ℕ) (h : ¬ (0 < sampleSize ∧ sampleSize ≤ b.heap.length)) :
    b.build sampleSize = (.error .valueError, b) := by
  rw [JessenBuilder.build, if_pos h]

/-- Witness for C10: a builder holding one element, asked for a sample
of 2. -/
theorem c10_witness :
    ¬ (0 < 2 ∧ 2 ≤ (⟨[⟨0, 1⟩], 1⟩ : JessenBuilder ℕ).heap.length) ∧
    (⟨[⟨0, 1⟩], 1⟩ : JessenBuilder ℕ).build 2
      = (.error .valueError, (⟨[⟨0, 1⟩], 1⟩ : JessenBuilder ℕ)) :=
  ⟨by decide, c10_build_size_check (⟨[⟨0, 1⟩], 1⟩ : JessenBuilder ℕ) 2
    (by decide)⟩

lemma normalizeLoop_ok_map {V : Type} (qk Z : ℚ) :
    ∀ (l m : List (JW V)), normalizeLoop qk Z l = .ok m →
      m = l.map (fun w => ⟨w.value, -(w.weight * qk / Z)⟩) := by
  intro l
  induction l with
  | nil => intro m hm; cases hm; rfl
  | cons w t ih =>
    intro m hm
    rw [normalizeLoop] at hm
    split at hm
    · cases hm
    · split at hm
      · next t' ht' =>
        cases hm
        rw [List.map_cons, ← ih t' ht']
      · cases hm

lemma normalizeLoop_ok_iff {V : Type} (qk Z : ℚ) :
    ∀ (l : List (JW V)), (∃ m, normalizeLoop qk Z l = .ok m) ↔
      ∀ w ∈ l, ¬ 1 < w.weight * qk / Z := by
  intro l
  induction l with
  | nil => exact ⟨fun _ w hw => absurd hw (List.not_mem_nil w), fun _ => ⟨[], rfl⟩⟩
  | cons w t ih =>
    constructor
    · rintro ⟨m, hm⟩ x hx
      rw [normalizeLoop] at hm
      split at hm
      · cases hm
      · next hw =>
        split at hm
        · next t' ht' =>
          rcases List.mem_cons.1 hx with rfl | hx
          · exact hw
          · exact (ih.1 ⟨t', ht'⟩) x hx
        · cases hm
    · intro hall
      have hw := hall w (List.mem_cons_self _ _)
      obtain ⟨t', ht'⟩ := ih.2 (fun x hx => hall x (List.mem_cons_of_mem _ hx))
      refine ⟨⟨w.value, -(w.weight * qk / Z)⟩ :: t', ?_⟩
      rw [normalizeLoop, if_neg hw, ht']

lemma normalizeLoop_not_error {V : Type} (qk Z : ℚ) (l : List (JW V))
    (hall : ∀ w ∈ l, ¬ 1 < w.weight * qk / Z) :
    normalizeLoop qk Z l
      = .ok (l.map (fun w => ⟨w.value, -(w.weight * qk / Z)⟩)) := by
  obtain ⟨m, hm⟩ := (normalizeLoop_ok_iff qk Z l).2 hall
  rw [hm, normalizeLoop_ok_map qk Z l m hm]

lemma foldlInsert_perm {β : Type} (wt : β → ℚ) :
    ∀ (l init : List β),
      (l.foldl (fun h w => insertWt wt w h) init).Perm (l ++ init) := by
  intro l
  induction l with
  | nil => intro init; simp
  | cons w t ih =>
    intro init
    have h1 := ih (insertWt wt w init)
    have h2 := List.Perm.append_left t (insertWt_perm wt w init)
    exact (h1.trans h2).trans List.perm_middle

lemma foldlInsert_sorted {β : Type} (wt : β → ℚ) :
    ∀ (l init : List β), init.Sorted (fun a b => wt a ≤ wt b) →
      (l.foldl (fun h w => insertWt wt w h) init).Sorted
        (fun a b => wt a ≤ wt b) := by
  intro l
  induction l with
  | nil => exact fun init h => h
  | cons w t ih => exact fun init h => ih _ (insertWt_sorted wt w h)

lemma sorted_getLast_max {V : Type} :
    ∀ (l : List (JW V)) (hs : l.Sorted (fun a b => a.weight ≤ b.weight))
      (hne : l ≠ []), ∀ x ∈ l, x.weight ≤ (l.getLast hne).weight := by
  intro l
  induction l with
  | nil => intro _ hne; exact absurd rfl hne
  | cons a t ih =>
    intro hs hne x hx
    cases t with
    | nil =>
      rcases List.mem_cons.1 hx with rfl | hx
      · exact le_refl _
      · cases hx
    | cons b t' =>
      have htne : b :: t' ≠ [] := List.cons_ne_nil _ _
      rw [List.getLast_cons htne]
      rcases List.mem_cons.1 hx with rfl | hx
      · exact List.rel_of_sorted_cons hs _ (List.getLast_mem htne)
      · exact ih (List.sorted_cons.1 hs).2 htne x hx

lemma sum_map_mul_const {V : Type} :
    ∀ (l : List (JW V)) (c : ℚ),
      (l.map (fun w => w.weight * c)).sum = (l.map JW.weight).sum * c := by
  intro l
  induction l with
  | nil => intro c; simp
  | cons w t ih => intro c; simp [ih]; ring

/-- Magnitude sum after one reduction step: if every popped weight plus
`r` is at most 0, the entries dropped by the push-back filter carry
exactly zero remaining weight, so the pushed-back magnitudes sum to the
popped magnitudes minus `length · r`. -/
lemma sum_filter_reduce {V : Type} (r : ℚ) :
    ∀ (l : List (JW V)), (∀ w ∈ l, w.weight + r ≤ 0) →
      (((l.filter (fun w => w.weight + r < 0)).map
        (fun w => -(w.weight + r))).sum)
        = (l.map (fun w => -w.weight)).sum - l.length * r := by
  intro l
  induction l with
  | nil => intro _; simp
  | cons w t ih =>
    intro h
    have hw := h w (List.mem_cons_self _ _)
    have ht := fun x hx => h x (List.mem_cons_of_mem _ hx)
    by_cases hlt : w.weight + r < 0
    · rw [List.filter_cons, if_pos (by simpa using hlt)]
      simp only [List.map_cons, List.sum_cons, List.length_cons, ih ht]
      push_cast
      ring
    · rw [List.filter_cons, if_neg (by simpa using hlt)]
      have hw0 : w.weight + r = 0 := le_antisymm hw (not_lt.1 hlt)
      simp only [List.map_cons, List.sum_cons, List.length_cons, ih ht]
      push_cast
      linarith

/-- The loop invariant of the Jessen tableau loop: the heap is sorted
ascending by stored weight, every stored weight is negative, no
magnitude exceeds the running balance, and the magnitudes sum to
`k · balance`. -/
def JInv {V : Type} (k : ℕ) (balance : ℚ) (heap : List (JW V)) : Prop :=
  heap.Sorted (fun a b => a.weight ≤ b.weight) ∧
  (∀ w ∈ heap, w.weight < 0) ∧
  (∀ w ∈ heap, -w.weight ≤ balance) ∧
  (heap.map (fun w => -w.weight)).sum = k * balance

/-- The number of heap entries whose magnitude equals the balance. -/
def cntBal {V : Type} (balance : ℚ) (heap : List (JW V)) : ℕ :=
  heap.countP (fun w => decide (-w.weight = balance))

/-- The termination measure of the tableau loop: each iteration either
shortens the heap or keeps its length and strictly increases the number
of at-balance entries. -/
def jMeasure {V : Type} (balance : ℚ) (heap : List (JW V)) : ℕ :=
  heap.length * (heap.length + 1) + (heap.length - cntBal balance heap)

lemma jMeasure_lt_of_len_lt {V : Type} (b1 b2 : ℚ) (h1 h2 : List (JW V))
    (hl : h1.length < h2.length) : jMeasure b1 h1 < jMeasure b2 h2 := by
  have c1 : cntBal b1 h1 ≤ h1.length := List.countP_le_length _
  unfold jMeasure
  nlinarith [Nat.sub_le h1.length (cntBal b1 h1)]

lemma jMeasure_lt_of_cnt_lt {V : Type} (b1 b2 : ℚ) (h1 h2 : List (JW V))
    (hl : h1.length = h2.length) (hc : cntBal b2 h2 < cntBal b1 h1)
    (hcle : cntBal b1 h1 ≤ h1.length) : jMeasure b1 h1 < jMeasure b2 h2 := by
  unfold jMeasure
  rw [hl] at hcle ⊢
  omega

/-- The `reduce_by` quantity of one iteration of the tableau loop,
written as a function of the iteration inputs (definitionally equal to
the let-bound `reduceBy` inside `jessenLoop`). -/
def jReduceBy {V : Type} (k : ℕ) (heap : List (JW V)) (balance : ℚ) : ℚ :=
  match heap.drop k with
  | [] => -((((heap.take k).getLast?).map JW.weight).getD 0)
  | r0 :: _ =>
    min (-((((heap.take k).getLast?).map JW.weight).getD 0))
      (balance + r0.weight)

/-- The entries pushed back after one iteration. -/
def jPushed {V : Type} (k : ℕ) (heap : List (JW V)) (r : ℚ) :
    List (JW V) :=
  ((heap.take k).filter (fun w => w.weight + r < 0)).map
    (fun w => (⟨w.value, w.weight + r⟩ : JW V))

/-- The heap after one iteration. -/
def jNext {V : Type} (k : ℕ) (heap : List (JW V)) (r : ℚ) : List (JW V) :=
  (jPushed k heap r).foldl (fun h w => insertWt JW.weight w h) (heap.drop k)

/-- One unfolding of the tableau loop when the heap is full enough and
the reduction is nonzero. -/
lemma jessenLoop_step {V : Type} (k fuel : ℕ) (heap : List (JW V))
    (balance : ℚ) (space : List (List V)) (probs : List ℚ)
    (hlen : k ≤ heap.length) (hr : jReduceBy k heap balance ≠ 0) :
    jessenLoop (fuel + 1) k heap balance space probs
      = jessenLoop fuel k (jNext k heap (jReduceBy k heap balance))
          (balance - jReduceBy k heap balance)
          (space ++ [(heap.take k).map JW.value])
          (probs ++ [jReduceBy k heap balance]) := by
  rw [jessenLoop, if_pos hlen]
  show (if jReduceBy k heap balance = 0 then some (space, probs)
    else jessenLoop fuel k (jNext k heap (jReduceBy k heap balance))
      (balance - jReduceBy k heap balance)
      (space ++ [(heap.take k).map JW.value])
      (probs ++ [jReduceBy k heap balance])) = _
  rw [if_neg hr]

/-- The loop invariant survives one iteration. -/
lemma step_inv {V : Type} (k : ℕ) (heap : List (JW V)) (balance r : ℚ)
    (hsr : (heap.drop k).Sorted (fun a b => a.weight ≤ b.weight))
    (hneg : ∀ w ∈ heap, w.weight < 0)
    (hble : ∀ w ∈ heap, -w.weight ≤ balance)
    (hsum : (heap.map (fun w => -w.weight)).sum = k * balance)
    (hlen : k ≤ heap.length)
    (hrte : ∀ w ∈ heap.take k, w.weight + r ≤ 0)
    (hrestle : ∀ w ∈ heap.drop k, -w.weight ≤ balance - r) :
    JInv k (balance - r) (jNext k heap r) := by
  have hpl : (heap.take k).length = k := by
    rw [List.length_take]; omega
  have hperm : (jNext k heap r).Perm (jPushed k heap r ++ heap.drop k) :=
    foldlInsert_perm JW.weight _ _
  refine ⟨foldlInsert_sorted JW.weight _ _ hsr, ?_, ?_, ?_⟩
  · intro w hw
    rcases List.mem_append.1 (hperm.mem_iff.1 hw) with hw | hw
    · obtain ⟨w0, hw0, rfl⟩ := List.mem_map.1 hw
      simpa using (List.mem_filter.1 hw0).2
    · exact hneg w (List.mem_of_mem_drop hw)
  · intro w hw
    rcases List.mem_append.1 (hperm.mem_iff.1 hw) with hw | hw
    · obtain ⟨w0, hw0, rfl⟩ := List.mem_map.1 hw
      have := hble w0 (List.mem_of_mem_take (List.mem_filter.1 hw0).1)
      simp only
      linarith
    · exact hrestle w hw
  · have hmaps := (hperm.map (fun w => -w.weight)).sum_eq
    rw [hmaps, List.map_append, List.sum_append]
    have hp : ((jPushed k heap r).map (fun w => -w.weight)).sum
        = ((heap.take k).map (fun w => -w.weight)).sum - k * r := by
      rw [jPushed, List.map_map]
      have hres := sum_filter_reduce r (heap.take k) hrte
      rw [hpl] at hres
      exact hres
    have hsplit : ((heap.take k).map (fun w => -w.weight)).sum
        + ((heap.drop k).map (fun w => -w.weight)).sum = k * balance := by
      rw [← List.sum_append, ← List.map_append, List.take_append_drop]
      exact hsum
    rw [hp]
    ring_nf
    ring_nf at hsplit
    linarith

/-- The specification of the Jessen tableau loop: under the loop
invariant and with fuel above the termination measure, the loop
completes (never exhausts its fuel and never takes the `reduce_by == 0`
break), appends samples of exactly `k` elements whose probabilities sum
to exactly the remaining balance, and records at least one sample per
`k` heap entries. -/
lemma jessenLoop_spec {V : Type} (k : ℕ) (hk : 1 ≤ k) :
    ∀ (fuel : ℕ) (heap : List (JW V)) (balance : ℚ)
      (space : List (List V)) (probs : List ℚ),
      JInv k balance heap →
      jMeasure balance heap < fuel →
      ∃ space' probs',
        jessenLoop fuel k heap balance space probs
          = some (space ++ space', probs ++ probs') ∧
        probs'.sum = balance ∧
        (∀ smp ∈ space', smp.length = k) ∧
        probs'.length = space'.length ∧
        heap.length ≤ k * probs'.length := by
  intro fuel
  induction fuel with
  | zero => intro heap balance space probs _ hfuel; cases hfuel
  | succ fuel ih =>
    intro heap balance space probs hinv hfuel
    obtain ⟨hs, hneg, hble, hsum⟩ := hinv
    by_cases hlen : k ≤ heap.length
    case neg =>
      -- Fewer than `k` entries left. The invariant forces the heap to be
      -- empty and the balance to be zero: the recorded probabilities
      -- account for everything.
      have hempty : heap = [] := by
        by_contra hne
        obtain ⟨w0, hw0⟩ := List.exists_mem_of_ne_nil heap hne
        have hbpos : 0 < balance :=
          lt_of_lt_of_le (by linarith [hneg w0 hw0]) (hble w0 hw0)
        have hsle : ((heap.map fun w => -w.weight).sum)
            ≤ (heap.map fun w => -w.weight).length • balance :=
          List.sum_le_card_nsmul _ _ (by
            intro x hx
            obtain ⟨w, hw, rfl⟩ := List.mem_map.1 hx
            exact hble w hw)
        rw [hsum, List.length_map] at hsle
        have hcast : ((heap.length : ℚ)) < (k : ℚ) := by
          exact_mod_cast Nat.lt_of_not_le hlen
        rw [nsmul_eq_mul] at hsle
        nlinarith
      subst hempty
      have hbal : balance = 0 := by
        have hk0 : (k : ℚ) ≠ 0 := by
          have h1 : (1 : ℚ) ≤ (k : ℚ) := by exact_mod_cast hk
          linarith
        simp only [List.map_nil, List.sum_nil] at hsum
        field_simp at hsum
        tauto
      refine ⟨[], [], ?_, by simp [hbal], by simp, by simp, by simp⟩
      rw [jessenLoop, if_neg (by simpa using hlen)]
      simp
    case pos =>
      -- At least `k` entries: one reduction step happens.
      have hpl : (heap.take k).length = k := by
        rw [List.length_take]; omega
      have hpne : heap.take k ≠ [] := by
        intro h0
        rw [h0] at hpl
        simp at hpl
        omega
      have happ := List.take_append_drop k heap
      have hpw := List.pairwise_append.1
        (show ((heap.take k) ++ (heap.drop k)).Pairwise
          (fun a b : JW V => a.weight ≤ b.weight) from by rw [happ]; exact hs)
      obtain ⟨hsp, hsr, hcross⟩ := hpw
      have hlastq : (heap.take k).getLast? = some ((heap.take k).getLast hpne) :=
        List.getLast?_eq_getLast _ hpne
      have hLmem : (heap.take k).getLast hpne ∈ heap.take k :=
        List.getLast_mem hpne
      have hLmem2 : (heap.take k).getLast hpne ∈ heap :=
        List.mem_of_mem_take hLmem
      have hLneg : ((heap.take k).getLast hpne).weight < 0 := hneg _ hLmem2
      have hmax : ∀ w ∈ heap.take k,
          w.weight ≤ ((heap.take k).getLast hpne).weight :=
        sorted_getLast_max _ hsp hpne
      have hdlen : (heap.drop k).length = heap.length - k := List.length_drop k heap
      set r := jReduceBy k heap balance with hrdef
      -- Branch on whether anything is left below the popped block.
      rcases hrest : heap.drop k with _ | ⟨r0, rest'⟩
      · -- The popped block is the whole heap.
        have hred : r = -((heap.take k).getLast hpne).weight := by
          rw [hrdef, jReduceBy, hrest, hlastq]
          rfl
        have hrpos : 0 < r := by rw [hred]; linarith
        have hrte : ∀ w ∈ heap.take k, w.weight + r ≤ 0 := by
          intro w hw
          have := hmax w hw
          rw [hred]
          linarith
        have hinv2 : JInv k (balance - r) (jNext k heap r) :=
          step_inv k heap balance r (by rw [hrest]; simp) hneg hble hsum hlen
            hrte (by rw [hrest]; intro w hw; cases hw)
        have hlt : (jNext k heap r).length < heap.length := by
          have hperm : (jNext k heap r).Perm (jPushed k heap r ++ heap.drop k) :=
            foldlInsert_perm JW.weight _ _
          have h1 : (jNext k heap r).length = (jPushed k heap r).length := by
            rw [hperm.length_eq, List.length_append, hrest]
            simp
          have h2 : (jPushed k heap r).length < k := by
            rw [jPushed, List.length_map]
            have hflt : ((heap.take k).filter
                (fun w => decide (w.weight + r < 0))).length
                < (heap.take k).length :=
              List.length_filter_lt_length_iff_exists.2
                ⟨(heap.take k).getLast hpne, hLmem, by simp [hred]⟩
            omega
          omega
        have hmlt : jMeasure (balance - r) (jNext k heap r)
            < jMeasure balance heap :=
          jMeasure_lt_of_len_lt _ _ _ _ hlt
        obtain ⟨s2, p2, heq, hsum2, hsmp2, hlen2, hbound2⟩ :=
          ih (jNext k heap r) (balance - r)
            (space ++ [(heap.take k).map JW.value]) (probs ++ [r]) hinv2
            (by omega)
        refine ⟨(heap.take k).map JW.value :: s2, r :: p2, ?_, ?_, ?_, ?_, ?_⟩
        · rw [jessenLoop_step k fuel heap balance space probs hlen
            (by rw [← hrdef]; exact ne_of_gt hrpos), ← hrdef, heq]
          simp
        · rw [List.sum_cons, hsum2]
          ring
        · intro smp hsmp
          rcases List.mem_cons.1 hsmp with rfl | hsmp
          · rw [List.length_map, hpl]
          · exact hsmp2 smp hsmp
        · simp [hlen2]
        · have hmul : k * (p2.length + 1) = k * p2.length + k := by ring
          have hdl : (heap.drop k).length = 0 := by rw [hrest]; rfl
          simp only [List.length_cons, hmul]
          omega
      · -- Entries remain below the popped block.
        have hr0mem : r0 ∈ heap := List.mem_of_mem_drop
          (by rw [hrest]; exact List.mem_cons_self _ _)
        have hr0neg : r0.weight < 0 := hneg _ hr0mem
        have hr0le : -r0.weight ≤ balance := hble _ hr0mem
        have hred : r = min (-((heap.take k).getLast hpne).weight)
            (balance + r0.weight) := by
          rw [hrdef, jReduceBy, hrest, hlastq]
          rfl
        have hrle1 : r ≤ -((heap.take k).getLast hpne).weight := by
          rw [hred]; exact min_le_left _ _
        have hrle2 : r ≤ balance + r0.weight := by
          rw [hred]; exact min_le_right _ _
        have hrpos : 0 < r := by
          rcases lt_or_le 0 r with h | h
          · exact h
          have hr0' : r = 0 := le_antisymm h (by
            rw [hred]
            exact le_min (by linarith) (by linarith))
          have hbal : balance = -r0.weight := by
            have hmin0 : min (-((heap.take k).getLast hpne).weight)
                (balance + r0.weight) = 0 := by rw [← hred, hr0']
            rcases min_cases (-((heap.take k).getLast hpne).weight)
              (balance + r0.weight) with ⟨h1, h2⟩ | ⟨h1, h2⟩
            · rw [hmin0] at h1; linarith
            · rw [hmin0] at h1; linarith
          have hallpop : ∀ w ∈ heap.take k, -w.weight = balance := by
            intro w hw
            have h1 : w.weight ≤ r0.weight :=
              hcross w hw r0 (by rw [hrest]; exact List.mem_cons_self _ _)
            have h2 := hble w (List.mem_of_mem_take hw)
            rw [hbal]
            linarith
          have htakesum : ((heap.take k).map (fun w => -w.weight)).sum
              = k * balance := by
            have := List.sum_eq_card_nsmul
              ((heap.take k).map (fun w => -w.weight)) balance (by
                intro x hx
                obtain ⟨w, hw, rfl⟩ := List.mem_map.1 hx
                exact hallpop w hw)
            rw [List.length_map, hpl, nsmul_eq_mul] at this
            exact this
          have hsplit : ((heap.take k).map (fun w => -w.weight)).sum
              + ((heap.drop k).map (fun w => -w.weight)).sum
              = k * balance := by
            rw [← List.sum_append, ← List.map_append, happ]
            exact hsum
          have hdrop0 : ((heap.drop k).map (fun w => -w.weight)).sum = 0 := by
            rw [htakesum] at hsplit
            linarith
          have hrestpos : (0 : ℚ) ≤ (rest'.map (fun w => -w.weight)).sum := by
            apply List.sum_nonneg
            intro x hx
            obtain ⟨w, hw, rfl⟩ := List.mem_map.1 hx
            have : w ∈ heap := List.mem_of_mem_drop
              (by rw [hrest]; exact List.mem_cons_of_mem _ hw)
            have := hneg w this
            linarith
          rw [hrest, List.map_cons, List.sum_cons] at hdrop0
          have hbalpos : 0 < balance := by rw [hbal]; linarith
          linarith [hbal ▸ hdrop0]
        have hrte : ∀ w ∈ heap.take k, w.weight + r ≤ 0 := by
          intro w hw
          have := hmax w hw
          linarith
        have hrestle : ∀ w ∈ heap.drop k, -w.weight ≤ balance - r := by
          intro w hw
          rw [hrest] at hw
          rcases List.mem_cons.1 hw with rfl | hw
          · linarith
          · have hsr' : (r0 :: rest').Sorted (fun a b : JW V => a.weight ≤ b.weight) := by
              rw [← hrest]; exact hsr
            have := List.rel_of_sorted_cons hsr' w hw
            linarith
        have hinv2 : JInv k (balance - r) (jNext k heap r) :=
          step_inv k heap balance r hsr hneg hble hsum hlen hrte
            (by rw [hrest] at hrestle ⊢; exact hrestle)
        have hperm : (jNext k heap r).Perm (jPushed k heap r ++ heap.drop k) :=
          foldlInsert_perm JW.weight _ _
        have hnextlen : (jNext k heap r).length
            = (jPushed k heap r).length + (heap.drop k).length := by
          rw [hperm.length_eq, List.length_append]
        have hmlt : jMeasure (balance - r) (jNext k heap r)
            < jMeasure balance heap := by
          by_cases hLd : ((heap.take k).getLast hpne).weight + r = 0
          · -- The last popped entry is consumed: the heap shrinks.
            have h2 : (jPushed k heap r).length < k := by
              rw [jPushed, List.length_map]
              have hflt : ((heap.take k).filter
                  (fun w => decide (w.weight + r < 0))).length
                  < (heap.take k).length :=
                List.length_filter_lt_length_iff_exists.2
                  ⟨(heap.take k).getLast hpne, hLmem, by simp [hLd]⟩
              omega
            exact jMeasure_lt_of_len_lt _ _ _ _ (by omega)
          · -- Nothing is consumed: the count of at-balance entries grows.
            have hLlt : ((heap.take k).getLast hpne).weight + r < 0 :=
              lt_of_le_of_ne (hrte _ hLmem) hLd
            have hrb : r = balance + r0.weight := by
              rcases min_cases (-((heap.take k).getLast hpne).weight)
                (balance + r0.weight) with ⟨h1, h2⟩ | ⟨h1, h2⟩
              · rw [← hred] at h1; linarith
              · rw [← hred] at h1; exact h1
            have hfall : (heap.take k).filter
                (fun w => decide (w.weight + r < 0)) = heap.take k :=
              List.filter_eq_self.2 (by
                intro w hw
                have := hmax w hw
                simp only [decide_eq_true_eq]
                linarith)
            have hplen : (jPushed k heap r).length = k := by
              rw [jPushed, hfall, List.length_map, hpl]
            have hleneq : (jNext k heap r).length = heap.length := by omega
            have hcnt : cntBal balance heap < cntBal (balance - r) (jNext k heap r) := by
              have hcnt' : cntBal (balance - r) (jNext k heap r)
                  = ((jPushed k heap r).countP
                      (fun w => decide (-w.weight = balance - r)))
                    + ((heap.drop k).countP
                      (fun w => decide (-w.weight = balance - r))) := by
                rw [cntBal, hperm.countP_eq, List.countP_append]
              have hpushcnt : ((jPushed k heap r).countP
                  (fun w => decide (-w.weight = balance - r)))
                  = ((heap.take k).countP
                      (fun w => decide (-w.weight = balance))) := by
                rw [jPushed, hfall, List.countP_map]
                apply List.countP_congr
                intro w hw
                simp only [Function.comp_apply, decide_eq_true_eq]
                constructor
                · intro h; linarith
                · intro h; linarith
              have hdropcnt1 : 0 < ((heap.drop k).countP
                  (fun w => decide (-w.weight = balance - r))) := by
                apply List.countP_pos_iff.2
                refine ⟨r0, by rw [hrest]; exact List.mem_cons_self _ _, ?_⟩
                simp only [decide_eq_true_eq]
                linarith
              have hdropcnt0 : ((heap.drop k).countP
                  (fun w => decide (-w.weight = balance))) = 0 := by
                apply List.countP_eq_zero.2
                intro w hw
                simp only [decide_eq_true_eq]
                have hw2 : r0.weight ≤ w.weight := by
                  rw [hrest] at hw
                  rcases List.mem_cons.1 hw with rfl | hw
                  · exact le_refl _
                  · have hsr' : (r0 :: rest').Sorted
                        (fun a b : JW V => a.weight ≤ b.weight) := by
                      rw [← hrest]; exact hsr
                    exact List.rel_of_sorted_cons hsr' w hw
                intro hcontra
                have : -w.weight ≤ -r0.weight := by linarith
                rw [hcontra] at this
                have : balance ≤ balance - r := by linarith
                linarith
              have hcntold : cntBal balance heap
                  = ((heap.take k).countP (fun w => decide (-w.weight = balance)))
                    + ((heap.drop k).countP (fun w => decide (-w.weight = balance))) := by
                rw [cntBal, show heap = heap.take k ++ heap.drop k from happ.symm,
                  List.countP_append]
                congr 1
                · rw [List.take_append_drop]
                · rw [List.take_append_drop]
              rw [hcnt', hpushcnt, hcntold, hdropcnt0]
              omega
            exact jMeasure_lt_of_cnt_lt _ _ _ _ hleneq hcnt
              (List.countP_le_length _)
        obtain ⟨s2, p2, heq, hsum2, hsmp2, hlen2, hbound2⟩ :=
          ih (jNext k heap r) (balance - r)
            (space ++ [(heap.take k).map JW.value]) (probs ++ [r]) hinv2
            (by omega)
        refine ⟨(heap.take k).map JW.value :: s2, r :: p2, ?_, ?_, ?_, ?_, ?_⟩
        · rw [jessenLoop_step k fuel heap balance space probs hlen
            (by rw [← hrdef]; exact ne_of_gt hrpos), ← hrdef, heq]
          simp
        · rw [List.sum_cons, hsum2]
          ring
        · intro smp hsmp
          rcases List.mem_cons.1 hsmp with rfl | hsmp
          · rw [List.length_map, hpl]
          · exact hsmp2 smp hsmp
        · simp [hlen2]
        · have hmul : k * (p2.length + 1) = k * p2.length + k := by ring
          have hple : (jPushed k heap r).length ≤ k := by
            rw [jPushed, List.length_map]
            have := List.length_filter_le
              (fun w => decide (w.weight + r < 0)) (heap.take k)
            omega
          simp only [List.length_cons, hmul]
          omega

/-- After normalization and heapification of a feasible well-formed
population, the tableau-loop invariant holds with balance 1. -/
lemma build_initial_inv {V : Type} (b : JessenBuilder V) (k : ℕ)
    (hwf : wfBuilder b) (hk : 0 < k) (hkn : k ≤ b.heap.length)
    (hfeas : ∀ w ∈ b.heap, ¬ 1 < w.weight * k / b.weightSum) :
    JInv k 1 (heapifyJW (b.heap.map
      (fun w => ⟨w.value, -(w.weight * k / b.weightSum)⟩))) := by
  obtain ⟨hpos, hZ⟩ := hwf
  have hne : b.heap ≠ [] := by
    intro h0
    rw [h0] at hkn
    simp at hkn
    omega
  have hZpos : 0 < b.weightSum := by
    rw [hZ]
    apply List.sum_pos
    · intro x hx
      obtain ⟨w, hw, rfl⟩ := List.mem_map.1 hx
      exact hpos w hw
    · simpa using hne
  have hkq : (0 : ℚ) < (k : ℚ) := by exact_mod_cast hk
  have hperm : (heapifyJW (b.heap.map
      (fun w => ⟨w.value, -(w.weight * k / b.weightSum)⟩))).Perm
      (b.heap.map (fun w => ⟨w.value, -(w.weight * k / b.weightSum)⟩)) := by
    have := foldlInsert_perm JW.weight
      (b.heap.map (fun w => ⟨w.value, -(w.weight * k / b.weightSum)⟩)) []
    simpa [heapifyJW] using this
  refine ⟨foldlInsert_sorted JW.weight _ [] (by simp), ?_, ?_, ?_⟩
  · intro w hw
    obtain ⟨w0, hw0, rfl⟩ := List.mem_map.1 (hperm.mem_iff.1 hw)
    have := hpos w0 hw0
    have : 0 < w0.weight * k / b.weightSum := by positivity
    simp only
    linarith
  · intro w hw
    obtain ⟨w0, hw0, rfl⟩ := List.mem_map.1 (hperm.mem_iff.1 hw)
    have := hfeas w0 hw0
    simp only [neg_neg]
    linarith [not_lt.1 (hfeas w0 hw0)]
  · rw [(hperm.map (fun w => -w.weight)).sum_eq, List.map_map]
    have hcomp : ((fun w : JW V => -w.weight) ∘
        (fun w : JW V => (⟨w.value, -(w.weight * k / b.weightSum)⟩ : JW V)))
        = fun w : JW V => w.weight * ((k : ℚ) / b.weightSum) := by
      funext w
      simp [mul_div_assoc]
    rw [hcomp, sum_map_mul_const, ← hZ]
    field_simp

/-- A feasible `build` succeeds: it returns the tableau produced by the
loop and resets the accumulator, and the tableau satisfies the loop
postconditions (probabilities summing to exactly 1, samples of exactly
`k` elements, and at least one recorded sample per `k` population
entries). -/
lemma build_ok {V : Type} (b : JessenBuilder V) (k : ℕ)
    (hwf : wfBuilder b) (hk : 0 < k) (hkn : k ≤ b.heap.length)
    (hfeas : ∀ w ∈ b.heap, ¬ 1 < w.weight * k / b.weightSum) :
    ∃ js : JessenSampling V, b.build k = (.ok js, ⟨[], 0⟩) ∧
      js.sampleProbabilities.sum = 1 ∧
      (∀ smp ∈ js.sampleSpace, smp.length = k) ∧
      js.sampleProbabilities.length = js.sampleSpace.length ∧
      b.heap.length ≤ k * js.sampleSpace.length := by
  have hinv := build_initial_inv b k hwf hk hkn hfeas
  have hlen0 : (heapifyJW (b.heap.map
      (fun w => (⟨w.value, -(w.weight * k / b.weightSum)⟩ : JW V)))).length
      = (b.heap.map
        (fun w => (⟨w.value, -(w.weight * k / b.weightSum)⟩ : JW V))).length := by
    have := foldlInsert_perm JW.weight
      (b.heap.map (fun w => (⟨w.value, -(w.weight * k / b.weightSum)⟩ : JW V))) []
    have h2 := this.length_eq
    simpa [heapifyJW] using h2
  obtain ⟨s2, p2, heq, hsum2, hsmp2, hlen2, hbound2⟩ :=
    jessenLoop_spec k hk
      ((b.heap.map (fun w => (⟨w.value, -(w.weight * k / b.weightSum)⟩ : JW V))).length
        * ((b.heap.map
            (fun w => (⟨w.value, -(w.weight * k / b.weightSum)⟩ : JW V))).length + 1)
        + (b.heap.map
            (fun w => (⟨w.value, -(w.weight * k / b.weightSum)⟩ : JW V))).length + 1)
      (heapifyJW (b.heap.map
        (fun w => (⟨w.value, -(w.weight * k / b.weightSum)⟩ : JW V)))) 1 [] [] hinv
      (by
        have hc : cntBal 1 (heapifyJW (b.heap.map
            (fun w => (⟨w.value, -(w.weight * k / b.weightSum)⟩ : JW V))))
            ≤ (heapifyJW (b.heap.map
              (fun w => (⟨w.value, -(w.weight * k / b.weightSum)⟩ : JW V)))).length :=
          List.countP_le_length _
        unfold jMeasure
        rw [hlen0] at hc ⊢
        omega)
  refine ⟨⟨s2, p2⟩, ?_, by simpa using hsum2, by simpa using hsmp2,
    by simp [hlen2], ?_⟩
  · rw [JessenBuilder.build, if_neg (not_not_intro ⟨hk, hkn⟩),
      normalizeLoop_not_error (k : ℚ) b.weightSum b.heap hfeas]
    show (match jessenLoop _ k (heapifyJW _) 1 [] [] with
      | none => ((Except.error Err.infeasibleCase :
          Except Err (JessenSampling V)), (⟨[], 0⟩ : JessenBuilder V))
      | some r => (.ok ⟨r.1, r.2⟩, ⟨[], 0⟩)) = _
    rw [heq]
    simp
  · have hmlen : b.heap.length = (b.heap.map
        (fun w => (⟨w.value, -(w.weight * k / b.weightSum)⟩ : JW V))).length := by
      simp
    simp only
    rw [hmlen, ← hlen0]
    simpa [hlen2] using hbound2

/-- C7 (confirmed): for a population accumulated through `add` and
`0 < k ≤ n`, `build(k)` raises the infeasibility error if and only if
some accumulated element's normalized weight `w·k/Σweights` exceeds 1,
and when no such element exists it returns a query object and leaves the
accumulator reset to empty (no elements, zero weight sum). -/
theorem c7_build_infeasibility {V : Type} (b : JessenBuilder V) (k : ℕ)
    (hwf : wfBuilder b) (hk : 0 < k) (hkn : k ≤ b.heap.length) :
    ((b.build k).1 = .error .infeasibleCase ↔
      ∃ w ∈ b.heap, 1 < w.weight * k / b.weightSum) ∧
    ((∀ w ∈ b.heap, ¬ 1 < w.weight * k / b.weightSum) →
      ∃ js, b.build k = (.ok js, JessenBuilder.reset V)) := by
  constructor
  · constructor
    · intro herr
      by_contra hno
      push_neg at hno
      obtain ⟨js, hjs, _⟩ := build_ok b k hwf hk hkn
        (fun w hw => not_lt.2 (hno w hw))
      rw [hjs] at herr
      cases herr
    · rintro ⟨w, hw, hgt⟩
      rcases hres : normalizeLoop (k : ℚ) b.weightSum b.heap with t' | m
      · rw [JessenBuilder.build, if_neg (not_not_intro ⟨hk, hkn⟩), hres]
      · exact absurd hgt ((normalizeLoop_ok_iff (k : ℚ) b.weightSum b.heap).1
          ⟨m, hres⟩ w hw)
  · intro hfeas
    obtain ⟨js, hjs, _⟩ := build_ok b k hwf hk hkn hfeas
    exact ⟨js, hjs⟩

/-- Witness for C7: the population `{0 ↦ 1, 1 ↦ 1}` with `k = 1`
(feasible, normalized weights `1/2`). -/
theorem c7_witness :
    wfBuilder (⟨[⟨0, 1⟩, ⟨1, 1⟩], 2⟩ : JessenBuilder ℕ) ∧ 0 < 1 ∧
    1 ≤ (⟨[⟨0, 1⟩, ⟨1, 1⟩], 2⟩ : JessenBuilder ℕ).heap.length ∧
    ((((⟨[⟨0, 1⟩, ⟨1, 1⟩], 2⟩ : JessenBuilder ℕ).build 1).1
        = .error .infeasibleCase ↔
      ∃ w ∈ (⟨[⟨0, 1⟩, ⟨1, 1⟩], 2⟩ : JessenBuilder ℕ).heap,
        1 < w.weight * (1 : ℕ) / (⟨[⟨0, 1⟩, ⟨1, 1⟩], 2⟩ : JessenBuilder ℕ).weightSum) ∧
    ((∀ w ∈ (⟨[⟨0, 1⟩, ⟨1, 1⟩], 2⟩ : JessenBuilder ℕ).heap,
        ¬ 1 < w.weight * (1 : ℕ) / (⟨[⟨0, 1⟩, ⟨1, 1⟩], 2⟩ : JessenBuilder ℕ).weightSum) →
      ∃ js, (⟨[⟨0, 1⟩, ⟨1, 1⟩], 2⟩ : JessenBuilder ℕ).build 1
        = (.ok js, JessenBuilder.reset ℕ))) :=
  ⟨⟨by norm_num [wfBuilder], by norm_num [wfBuilder]⟩, by norm_num,
    by norm_num,
    c7_build_infeasibility (⟨[⟨0, 1⟩, ⟨1, 1⟩], 2⟩ : JessenBuilder ℕ) 1
      ⟨by norm_num [wfBuilder], by norm_num [wfBuilder]⟩ (by norm_num)
      (by norm_num)⟩

set_option maxHeartbeats 3000000 in
/-- C8 counterexample: the claim says the tableau has at least `n`
entries. For the feasible population `{0 ↦ 1, 1 ↦ 1, 2 ↦ 2}` (`n = 3`)
and `k = 2`, `build` produces a tableau of exactly 2 entries
(`[2,1]` with probability `1/2` and `[2,0]` with probability `1/2`), so
the bound `≥ n` fails even with `k < n`. -/
theorem c8_tableau_size_counterexample :
    ∃ js : JessenSampling ℕ,
      ((⟨[⟨0, 1⟩, ⟨1, 1⟩, ⟨2, 2⟩], 4⟩ : JessenBuilder ℕ).build 2).1
        = .ok js ∧
      (⟨[⟨0, 1⟩, ⟨1, 1⟩, ⟨2, 2⟩], 4⟩ : JessenBuilder ℕ).heap.length = 3 ∧
      js.sampleSpace.length = 2 ∧
      ¬ (3 ≤ js.sampleSpace.length) := by
  refine ⟨⟨[[2, 1], [2, 0]], [1/2, 1/2]⟩, ?_, by norm_num, by norm_num,
    by norm_num⟩
  norm_num [JessenBuilder.build, normalizeLoop, heapifyJW, jessenLoop,
    insertWt, jReduceBy, min_def]

/-- C8 (corrected): for every feasible well-formed population of `n`
elements and `0 < k ≤ n`, the tableau produced by `build(k)` satisfies:
every recorded sample has exactly `k` elements, the recorded
probabilities sum to exactly 1 (the model computes in exact rationals),
and the tableau has at least `⌈n/k⌉` entries (stated as `n ≤ k ·
tableau size`); the claimed lower bound of `n` entries does not hold in
general. -/
theorem c8_amended_tableau {V : Type} (b : JessenBuilder V) (k : ℕ)
    (hwf : wfBuilder b) (hk : 0 < k) (hkn : k ≤ b.heap.length)
    (hfeas : ∀ w ∈ b.heap, ¬ 1 < w.weight * k / b.weightSum) :
    ∃ js : JessenSampling V, (b.build k).1 = .ok js ∧
      (∀ smp ∈ js.sampleSpace, smp.length = k) ∧
      js.sampleProbabilities.sum = 1 ∧
      js.sampleProbabilities.length = js.sampleSpace.length ∧
      b.heap.length ≤ k * js.sampleSpace.length := by
  obtain ⟨js, hjs, hsum, hsmp, hlen, hbound⟩ := build_ok b k hwf hk hkn hfeas
  exact ⟨js, by rw [hjs], hsmp, hsum, hlen, hbound⟩

/-- Witness for C8 at the feasible population `{0 ↦ 1, 1 ↦ 1}`, `k = 1`. -/
theorem c8_witness :
    wfBuilder (⟨[⟨0, 1⟩, ⟨1, 1⟩], 2⟩ : JessenBuilder ℕ) ∧ 0 < 1 ∧
    1 ≤ (⟨[⟨0, 1⟩, ⟨1, 1⟩], 2⟩ : JessenBuilder ℕ).heap.length ∧
    (∀ w ∈ (⟨[⟨0, 1⟩, ⟨1, 1⟩], 2⟩ : JessenBuilder ℕ).heap,
      ¬ 1 < w.weight * (1 : ℕ) / (⟨[⟨0, 1⟩, ⟨1, 1⟩], 2⟩ : JessenBuilder ℕ).weightSum) ∧
    (∃ js : JessenSampling ℕ,
      (((⟨[⟨0, 1⟩, ⟨1, 1⟩], 2⟩ : JessenBuilder ℕ).build 1).1 = .ok js ∧
      (∀ smp ∈ js.sampleSpace, smp.length = 1) ∧
      js.sampleProbabilities.sum = 1 ∧
      js.sampleProbabilities.length = js.sampleSpace.length ∧
      (⟨[⟨0, 1⟩, ⟨1, 1⟩], 2⟩ : JessenBuilder ℕ).heap.length
        ≤ 1 * js.sampleSpace.length)) :=
  ⟨⟨by norm_num [wfBuilder], by norm_num [wfBuilder]⟩, by norm_num,
    by norm_num, by norm_num,
    c8_amended_tableau (⟨[⟨0, 1⟩, ⟨1, 1⟩], 2⟩ : JessenBuilder ℕ) 1
      ⟨by norm_num [wfBuilder], by norm_num [wfBuilder]⟩ (by norm_num)
      (by norm_num) (by norm_num)⟩

end Rsx
